import Mathlib

/-!
# cc-config: plugin-cache snapshots and skill replication

A shallow embedding of `pkg/cache/cache.go` (`Backup`, `Restore`, `Clean`,
`formatSize`) and `pkg/backup/skills.go` (`SkillsBackup.Backup`,
`copySkillFile`), and the properties proved of them.

* Size formatting is modelled exactly over the naturals: the conversion
  `float64(bytes)` is the round-to-nearest-even 53-bit value, the division by a
  power of two is exact, and `%.1f` rounds the exact quotient to tenths, ties
  to even.
* The file system is a tree of regular files and directories, changed by
  `os.MkdirAll`, `os.Create`, writes through an open file, `os.Chmod` and
  `os.Remove`, and read by `os.Stat` and `os.ReadDir`.  Every operation takes
  the file system and returns the one it leaves.
* `archive/tar` and `compress/gzip` are libraries: a container is a sequence of
  records, and the format is a parameter with the one law that what was
  written and closed reads back.
* What the terminal shows is left out, but for the count `SkillsBackup.Backup`
  reports and for the listing loops that use the result of `entry.Info()`.
* Failures of the environment are parameters of the operations: a `Close` that
  fails, an `entry.Info()` that fails, an `os.Remove` that fails.
-/

namespace CcConfig

namespace Cache

/-! ## formatSize -/

/-- The conversion `float64(bytes)` for a non-negative `int64`: the nearest
value with a 53-bit significand, ties to even.  Exact below `2^53`. -/
def float64OfNat (n : Nat) : Nat :=
  if n < 2 ^ 53 then n
  else
    let e := Nat.log2 n - 52
    let q := n / 2 ^ e
    let r := n % 2 ^ e
    let half := 2 ^ (e - 1)
    if half < r ∨ (r = half ∧ q % 2 = 1) then (q + 1) * 2 ^ e else q * 2 ^ e

/-- The number of tenths that `%.1f` prints for the exact value `num / den`:
the nearest tenth, ties to even. -/
def roundTenths (num den : Nat) : Nat :=
  let q := 10 * num / den
  let r := 10 * num % den
  if den < 2 * r ∨ (2 * r = den ∧ q % 2 = 1) then q + 1 else q

/-- The text of `t` tenths: integer part, a point, one digit. -/
def oneDecimal (t : Nat) : String :=
  Nat.repr (t / 10) ++ "." ++ Nat.repr (t % 10)

/-- `fmt.Sprintf("%.1f", x)` for the non-negative value `x = num / den`. -/
def sprintfF1 (num den : Nat) : String :=
  oneDecimal (roundTenths num den)

def KB : Nat := 1024
def MB : Nat := KB * 1024
def GB : Nat := MB * 1024

/-- `formatSize(bytes int64) string` of cache.go. -/
def formatSize (bytes : Int) : String :=
  if (GB : Int) ≤ bytes then sprintfF1 (float64OfNat bytes.toNat) GB ++ "GB"
  else if (MB : Int) ≤ bytes then sprintfF1 (float64OfNat bytes.toNat) MB ++ "MB"
  else if (KB : Int) ≤ bytes then sprintfF1 (float64OfNat bytes.toNat) KB ++ "KB"
  else toString bytes ++ "B"

/-- Whether the text `s` ends with the text `suf`. -/
def hasSuffix (s suf : String) : Bool :=
  suf.data.reverse.isPrefixOf s.data.reverse

end Cache

/-! ## File system

The file system is a tree of regular files and directories.  A directory
lists its entries in the order `os.ReadDir` returns them (by file name).
Paths handed in by the caller (`claudeDir`, `repoPath`, `configDir`) are
absolute cleaned paths, held as the list of their components, so that
joining one with plain names appends components.  Permission modes are the
ones requested from the system; the process umask is not modelled. -/

abbrev Bytes := List Nat

abbrev Path := List String

/-- Errors returned by the operations of this development. -/
inductive Err where
  /-- The sentinel `os.ErrNotExist`. -/
  | ErrNotExist
  | ENOENT
  | ENOTDIR
  | EISDIR
  | EPERM
  | ENOTEMPTY
  /-- The sentinel `io.ErrUnexpectedEOF`. -/
  | ErrUnexpectedEOF
  /-- Any other error, by its text. -/
  | other (msg : String)
deriving DecidableEq, Repr

/-- `os.IsNotExist(err)`. -/
def IsNotExist : Err → Bool
  | .ErrNotExist => true
  | .ENOENT => true
  | _ => false

inductive Node where
  | file (mode : Nat) (data : Bytes)
  | dir (mode : Nat) (entries : List (String × Node))
deriving Repr

namespace Node

def IsDir : Node → Bool
  | .dir _ _ => true
  | .file _ _ => false

def Mode : Node → Nat
  | .dir m _ => m
  | .file m _ => m

def Size : Node → Nat
  | .dir _ _ => 0
  | .file _ d => d.length

def setData (data : Bytes) : Node → Node
  | .file m _ => .file m data
  | .dir m kids => .dir m kids

def setMode (mode : Nat) : Node → Node
  | .file _ d => .file mode d
  | .dir _ kids => .dir mode kids

end Node

/-- What `os.Stat` tells about one path, and the bytes a read of it gives. -/
inductive Attr where
  | file (mode : Nat) (data : Bytes)
  | dir (mode : Nat)
deriving DecidableEq, Repr

def Node.attr : Node → Attr
  | .file m d => .file m d
  | .dir m _ => .dir m

/-- Kind and content of a path, permission bits left out. -/
inductive Shape where
  | file (data : Bytes)
  | dir
deriving DecidableEq, Repr

def Attr.shape : Attr → Shape
  | .file _ d => .file d
  | .dir _ => .dir

/-- Byte-wise order of two names, as `os.ReadDir` sorts them. -/
def charsLt : List Char → List Char → Bool
  | _, [] => false
  | [], _ :: _ => true
  | a :: as, b :: bs => a.toNat < b.toNat || (a.toNat == b.toNat && charsLt as bs)

def nameLt (a b : String) : Bool := charsLt a.data b.data

/-- The entry `name` of a directory listing. -/
def getKid : List (String × Node) → String → Option Node
  | [], _ => none
  | (k, v) :: rest, name => if name = k then some v else getKid rest name

/-- Put entry `name` into a directory listing: replace it when present, else
insert it at its place in name order. -/
def putKid : List (String × Node) → String → Node → List (String × Node)
  | [], name, n => [(name, n)]
  | (k, v) :: rest, name, n =>
    if name = k then (name, n) :: rest
    else if nameLt name k then (name, n) :: (k, v) :: rest
    else (k, v) :: putKid rest name n

/-- Take entry `name` out of a directory listing. -/
def dropKid : List (String × Node) → String → List (String × Node)
  | [], _ => []
  | (k, v) :: rest, name =>
    if k = name then dropKid rest name else (k, v) :: dropKid rest name

/-- `os.Stat(path)`: the node a path leads to. -/
def stat : Node → Path → Except Err Node
  | n, [] => .ok n
  | .file _ _, _ :: _ => .error .ENOTDIR
  | .dir _ kids, c :: rest =>
    match getKid kids c with
    | none => .error .ENOENT
    | some k => stat k rest

/-- What is at a path, if anything. -/
def attrAt (root : Node) (p : Path) : Option Attr :=
  match stat root p with
  | .ok n => some n.attr
  | .error _ => none

/-- `os.MkdirAll(path, perm)`: an existing directory is left as it is, a
file on the way is `ENOTDIR`, missing directories are made with `perm`. -/
def mkdirAll : Node → Path → Nat → Except Err Node
  | .file _ _, _, _ => .error .ENOTDIR
  | .dir m kids, [], _ => .ok (.dir m kids)
  | .dir m kids, c :: rest, perm =>
    match getKid kids c with
    | some k =>
      match mkdirAll k rest perm with
      | .ok k' => .ok (.dir m (putKid kids c k'))
      | .error e => .error e
    | none =>
      match mkdirAll (.dir perm []) rest perm with
      | .ok k' => .ok (.dir m (putKid kids c k'))
      | .error e => .error e

/-- `os.Create(path)`: open for writing, created with mode 0666 when missing,
truncated when present. -/
def create : Node → Path → Except Err Node
  | .file m _, [] => .ok (.file m [])
  | .dir _ _, [] => .error .EISDIR
  | .file _ _, _ :: _ => .error .ENOTDIR
  | .dir m kids, c :: rest =>
    match getKid kids c with
    | some k =>
      match create k rest with
      | .ok k' => .ok (.dir m (putKid kids c k'))
      | .error e => .error e
    | none =>
      match rest with
      | [] => .ok (.dir m (putKid kids c (.file 0o666 [])))
      | _ :: _ => .error .ENOENT

/-- Apply `f` to the node at a path; nothing changes when the path leads
nowhere. -/
def modify (f : Node → Node) : Node → Path → Node
  | n, [] => f n
  | .file m d, _ :: _ => .file m d
  | .dir m kids, c :: rest =>
    match getKid kids c with
    | some k => .dir m (putKid kids c (modify f k rest))
    | none => .dir m kids

/-- The bytes written through a handle that `create` returned become the
content of the file. -/
def write (root : Node) (p : Path) (data : Bytes) : Node :=
  modify (Node.setData data) root p

/-- `os.Chmod(path, mode)`. -/
def chmod (root : Node) (p : Path) (mode : Nat) : Except Err Node :=
  match stat root p with
  | .error e => .error e
  | .ok _ => .ok (modify (Node.setMode mode) root p)

/-- `os.ReadDir(path)`: the entries of a directory, in listing order. -/
def readDir (root : Node) (p : Path) : Except Err (List (String × Node)) :=
  match stat root p with
  | .error e => .error e
  | .ok (.file _ _) => .error .ENOTDIR
  | .ok (.dir _ kids) => .ok kids

/-- Unlink the entry a path names. -/
def unlink : Node → Path → Node
  | n, [] => n
  | .file m d, _ :: _ => .file m d
  | .dir m kids, [c] => .dir m (dropKid kids c)
  | .dir m kids, c :: c' :: rest =>
    match getKid kids c with
    | some k => .dir m (putKid kids c (unlink k (c' :: rest)))
    | none => .dir m kids

/-- `os.Remove(path)`: a file or an empty directory is taken away.  The
environment decides through `locked` which paths refuse deletion. -/
def remove (locked : Path → Bool) (root : Node) (p : Path) : Except Err Node :=
  match stat root p with
  | .error e => .error e
  | .ok (.dir _ (_ :: _)) => .error .ENOTEMPTY
  | .ok _ => if locked p then .error .EPERM else .ok (unlink root p)

/-- The entries of a listing that are not directories. -/
def nonDirs (kids : List (String × Node)) : List (String × Node) :=
  kids.filter fun kv => !kv.2.IsDir

/-- An edit of a node that leaves what lies below it alone. -/
def keepsBelow (f : Node → Node) : Prop :=
  ∀ (n : Node) (c : String) (rest : Path), attrAt (f n) (c :: rest) = attrAt n (c :: rest)


/-! ## Names and joins

Header names are the strings stored in the container.  Joining follows
`filepath.Join` and `filepath.Clean`: split at `/`, drop empty and `.`
components, let `..` take away the component before it. -/

namespace Filepath

/-- `strings.Split(s, "/")` on the characters of `s`. -/
def splitSlash : List Char → List (List Char)
  | [] => [[]]
  | c :: cs =>
    if c = '/' then [] :: splitSlash cs
    else
      match splitSlash cs with
      | [] => [[c]]
      | w :: ws => (c :: w) :: ws

/-- The components of a slash-separated string. -/
def components (s : String) : List String :=
  (splitSlash s.data).map String.mk

/-- `strings.Join(elems, "/")`. -/
def joinSlash (elems : List String) : String :=
  String.mk (List.intercalate [ '/' ] (elems.map String.data))

/-- One step of `Clean` over the components read so far. -/
def cleanStep (rooted : Bool) (stack : List String) (c : String) : List String :=
  if c = "" ∨ c = "." then stack
  else if c = ".." then
    match stack.getLast? with
    | none => if rooted then [] else [ ".." ]
    | some top => if top = ".." then stack ++ [ ".." ] else stack.dropLast
  else stack ++ [c]

/-- `filepath.Clean(s)`. -/
def Clean (s : String) : String :=
  let rooted : Bool := s.data.head? = some '/'
  let comps := (components s).foldl (cleanStep rooted) []
  if rooted then String.mk ('/' :: (joinSlash comps).data)
  else if comps = [] then "." else joinSlash comps

/-- `filepath.Join(elems...)`: empty elements are ignored, the rest is joined
with `/` and cleaned. -/
def Join (elems : List String) : String :=
  let nonEmpty := elems.filter fun e => e ≠ ""
  if nonEmpty = [] then "" else Clean (joinSlash nonEmpty)

/-- `filepath.Rel(base, path)` for a path `rel` components below `base`. -/
def Rel (rel : Path) : String :=
  if rel = [] then "." else joinSlash rel

/-- `filepath.Join(dir, elems...)` for an absolute cleaned directory `dir`:
the components of the elements are cleaned onto `dir`. -/
def joinUnder (dir : Path) (elems : List String) : Path :=
  (elems.flatMap components).foldl (cleanStep true) dir

/-- `filepath.Dir(path)` of an absolute cleaned path. -/
def Dir (p : Path) : Path := p.dropLast

/-- A name a directory entry can have. -/
def plainName (s : String) : Prop :=
  s ≠ "" ∧ s ≠ "." ∧ s ≠ ".." ∧ '/' ∉ s.data

instance (s : String) : Decidable (plainName s) := by
  unfold plainName; infer_instance

end Filepath

/-- Every entry name in the tree is one a directory entry can have, and no
directory lists a name twice. -/
def Node.wellFormed : Node → Prop
  | .file _ _ => True
  | .dir _ kids => wfKids kids
where wfKids : List (String × Node) → Prop
  | [] => True
  | (k, n) :: rest =>
    Filepath.plainName k ∧ getKid rest k = none ∧ Node.wellFormed n ∧ wfKids rest

/-! ## Containers

`archive/tar` and `compress/gzip` are libraries.  What they are trusted to do
is kept in `TarGz`: a written and closed container reads back as the records
that were written, then the end marker.  Of a header the name, type flag,
mode and size are kept. -/

namespace Tar

def TypeReg : Char := '0'
def TypeDir : Char := '5'

structure Header where
  Name : String
  Typeflag : Char
  Mode : Nat
  Size : Nat
deriving DecidableEq, Repr

/-- A header record and the payload bytes that follow it. -/
structure Entry where
  header : Header
  payload : Bytes
deriving DecidableEq, Repr

/-- How a stream of records ends for the reader. -/
inductive Ending where
  /-- The end-of-archive marker: `Next` returns `io.EOF`. -/
  | eof
  /-- `Next` fails on a header. -/
  | badHeader (e : Err)
  /-- `Next` returns the header `h`, the stream stops after `got`, a part of
  its payload. -/
  | cut (h : Header) (got : Bytes)
deriving DecidableEq, Repr

/-- What a reader gets out of a container: records read in full, then the
ending. -/
structure Stream where
  entries : List Entry
  ending : Ending
deriving DecidableEq, Repr

/-- `tar.FileInfoHeader(info, "")`; the caller sets the name. -/
def FileInfoHeader (name : String) (info : Node) : Header :=
  { Name := name
    Typeflag := if info.IsDir then TypeDir else TypeReg
    Mode := info.Mode
    Size := info.Size }

/-- The writer accepts a record whose payload has the size its header states. -/
def Entry.sized (e : Entry) : Prop := e.header.Size = e.payload.length

end Tar

/-- The container format: the bytes a closed writer leaves for a list of
records, and what a reader makes of some bytes (`Except.error`: the gzip
reader refuses them). -/
structure TarGz where
  pack : List Tar.Entry → Bytes
  unpack : Bytes → Except Err Tar.Stream
  unpack_pack : ∀ es : List Tar.Entry, (∀ e ∈ es, e.sized) →
    unpack (pack es) = .ok ⟨es, .eof⟩

/-! ## The operations -/

/-- The file system an operation leaves and the error it returns. -/
structure Outcome where
  fs : Node
  err : Option Err

/-- Whether a call failed with an error that `os.IsNotExist` accepts. -/
def notExist {α : Type} : Except Err α → Bool
  | .error e => IsNotExist e
  | .ok _ => false

namespace Cache

open Filepath

/-- The callback of `filepath.Walk` in `Backup`, for the node `info` found
`rel` below the walked root: the record handed to the tar writer. -/
def walkFn (rel : Path) (info : Node) : Tar.Entry :=
  { header := Tar.FileInfoHeader (Join [ "cache", Rel rel ]) info
    payload := match info with
      | .file _ d => d
      | .dir _ _ => [] }

/-- `filepath.Walk` over the tree `t` found `rel` below the root: the node
itself, then its entries in listing order, each walked in turn. -/
def walk : Node → Path → List Tar.Entry
  | .file m d, rel => [walkFn rel (.file m d)]
  | .dir m kids, rel => walkFn rel (.dir m kids) :: walkKids kids rel
where walkKids : List (String × Node) → Path → List Tar.Entry
  | [], _ => []
  | (k, n) :: rest, rel => walk n (rel ++ [k]) ++ walkKids rest rel

/-- Where `Restore` puts the node that the walk of `Backup` found `rel` below
its root. -/
def target (claudeDir rel : Path) : Path :=
  claudeDir ++ "plugins" :: "cache" :: rel

/-- What `Restore` makes of a node: the content of a file, with the modes
that `os.Create` and `os.MkdirAll` are called with. -/
def restored : Attr → Attr
  | .file _ d => .file 0o666 d
  | .dir _ => .dir 0o755

/-- A listing loop that, for every entry picked by `pick`, runs
`info, _ := entry.Info()` and then `info.Size()`.  `lstatFails` tells for which
paths `entry.Info()` fails; `info` is nil then and the program stops there. -/
def listingStops (lstatFails : Path → Bool) (dir : Path) (pick : Node → Bool)
    (entries : List (String × Node)) : Bool :=
  entries.any fun e => pick e.2 && lstatFails (dir ++ [e.1])

/-- What the deferred `Close` calls of `Backup` return, and the bytes left in
the output file when one of them fails. -/
structure Closing where
  tarClose : Option Err
  gzipClose : Option Err
  fileClose : Option Err
  leftover : Bytes

def Closing.clean (c : Closing) : Bool :=
  c.tarClose.isNone && c.gzipClose.isNone && c.fileClose.isNone

/-- `Backup(repoPath)`.  `getClaudeDir` is what `config.GetClaudeDir()`
returns, `lstatFails` tells which paths `entry.Info()` fails on.  The listing
of the detected plugins ignores the error of `os.ReadDir` and stops the
program on a nil `info`: `Err.other "nil dereference"`.  The container gets
its bytes when the writers are closed. -/
def Backup (tgz : TarGz) (lstatFails : Path → Bool) (closing : Closing)
    (getClaudeDir : Except Err Path) (repoPath : Path) (root : Node) : Outcome :=
  match getClaudeDir with
  | .error e => ⟨root, some e⟩
  | .ok claudeDir =>
    let pluginsCacheDir := claudeDir ++ [ "plugins", "cache" ]
    let cacheDir := repoPath ++ [ "cache" ]
    let cacheFile := cacheDir ++ [ "plugins-cache.tar.gz" ]
    if notExist (stat root pluginsCacheDir) then ⟨root, some .ErrNotExist⟩
    else
      match mkdirAll root cacheDir 0o755 with
      | .error e => ⟨root, some e⟩
      | .ok root1 =>
        let entries : List (String × Node) :=
          match readDir root1 pluginsCacheDir with
          | .error _ => []
          | .ok es => es
        if listingStops lstatFails pluginsCacheDir Node.IsDir entries then
          ⟨root1, some (.other "nil dereference")⟩
        else
          match create root1 cacheFile with
          | .error e => ⟨root1, some e⟩
          | .ok root2 =>
            let walked : List Tar.Entry × Option Err :=
              match stat root2 pluginsCacheDir with
              | .error e => ([], some e)
              | .ok t => (walk t [], none)
            let data := if closing.clean then tgz.pack walked.1 else closing.leftover
            ⟨write root2 cacheFile data, walked.2⟩

/-- One pass of the loop of `Restore` over a record read in full. -/
def restoreEntry (claudeDir : Path) (root : Node) (e : Tar.Entry) : Outcome :=
  let targetPath := joinUnder claudeDir [ "plugins", e.header.Name ]
  if e.header.Typeflag = Tar.TypeDir then
    match mkdirAll root targetPath 0o755 with
    | .error err => ⟨root, some err⟩
    | .ok root1 => ⟨root1, none⟩
  else
    match mkdirAll root (Dir targetPath) 0o755 with
    | .error err => ⟨root, some err⟩
    | .ok root1 =>
      match create root1 targetPath with
      | .error err => ⟨root1, some err⟩
      | .ok root2 => ⟨write root2 targetPath e.payload, none⟩

/-- The pass of the loop over a record whose payload stops early: the header
is acted on, the bytes that came are copied, the read error is returned. -/
def restoreCut (claudeDir : Path) (root : Node) (h : Tar.Header) (got : Bytes) : Outcome :=
  let targetPath := joinUnder claudeDir [ "plugins", h.Name ]
  if h.Typeflag = Tar.TypeDir then
    match mkdirAll root targetPath 0o755 with
    | .error err => ⟨root, some err⟩
    | .ok root1 => ⟨root1, some .ErrUnexpectedEOF⟩
  else
    match mkdirAll root (Dir targetPath) 0o755 with
    | .error err => ⟨root, some err⟩
    | .ok root1 =>
      match create root1 targetPath with
      | .error err => ⟨root1, some err⟩
      | .ok root2 => ⟨write root2 targetPath got, some .ErrUnexpectedEOF⟩

/-- The loop of `Restore`: records in stream order, stopping at the first
error. -/
def restoreLoop (claudeDir : Path) : Node → List Tar.Entry → Tar.Ending → Outcome
  | root, [], .eof => ⟨root, none⟩
  | root, [], .badHeader e => ⟨root, some e⟩
  | root, [], .cut h got => restoreCut claudeDir root h got
  | root, e :: es, ending =>
    match restoreEntry claudeDir root e with
    | ⟨root1, none⟩ => restoreLoop claudeDir root1 es ending
    | ⟨root1, some err⟩ => ⟨root1, some err⟩

/-- `Restore(repoPath)`.  When `os.Stat` of the container fails with an error
other than not-exist, `info` is nil and `info.Size()` stops the program:
`Err.other "nil dereference"`. -/
def Restore (tgz : TarGz) (getClaudeDir : Except Err Path) (repoPath : Path)
    (root : Node) : Outcome :=
  match getClaudeDir with
  | .error e => ⟨root, some e⟩
  | .ok claudeDir =>
    let cacheFile := repoPath ++ [ "cache", "plugins-cache.tar.gz" ]
    if notExist (stat root cacheFile) then ⟨root, some .ErrNotExist⟩
    else
      match stat root cacheFile with
      | .error _ => ⟨root, some (.other "nil dereference")⟩
      | .ok (.dir _ _) => ⟨root, some .EISDIR⟩
      | .ok (.file _ data) =>
        match tgz.unpack data with
        | .error e => ⟨root, some e⟩
        | .ok stream => restoreLoop claudeDir root stream.entries stream.ending

/-- One pass of the deleting loop of `Clean`: a directory is passed over, a
failure of `os.Remove` is ignored. -/
def deleteEntry (locked : Path → Bool) (cacheDir : Path) (fs : Node) (entry : String × Node) :
    Node :=
  if entry.2.IsDir then fs
  else
    match remove locked fs (cacheDir ++ [entry.1]) with
    | .ok fs1 => fs1
    | .error _ => fs

/-- `Clean(repoPath)`.  `lstatFails` tells which paths `entry.Info()` fails on,
`locked` which paths `os.Remove` fails on.  A nil `info` stops the program in
the listing loop, before anything is deleted: `Err.other "nil dereference"`.
The sizes serve the printed lines only. -/
def Clean (lstatFails locked : Path → Bool) (repoPath : Path) (root : Node) : Outcome :=
  let cacheDir := repoPath ++ [ "cache" ]
  match readDir root cacheDir with
  | .error e => ⟨root, some e⟩
  | .ok entries =>
    if listingStops lstatFails cacheDir (fun n => !n.IsDir) entries then
      ⟨root, some (.other "nil dereference")⟩
    else ⟨entries.foldl (deleteEntry locked cacheDir) root, none⟩

/-- Whether `q` is, or lies below, an entry of the listing that is not a
directory and that `os.Remove` does not fail on. -/
def deleted (locked : Path → Bool) (cacheDir : Path) (entries : List (String × Node))
    (q : Path) : Bool :=
  entries.any fun e =>
    !e.2.IsDir && !locked (cacheDir ++ [e.1]) && decide ((cacheDir ++ [e.1]) <+: q)

end Cache

namespace Skills

/-- What `copySkillFile` gets from closing its two handles. -/
structure Closes where
  srcClose : Path → Option Err
  dstClose : Path → Option Err

/-- The error `copySkillFile` returns: the primary one, else the one from
closing the destination, else the one from closing the source. -/
def closeErr (primary dst src : Option Err) : Option Err :=
  match primary with
  | some e => some e
  | none =>
    match dst with
    | some e => some e
    | none => src

/-- `copySkillFile(src, dst)`.  The source is read after the destination has
been created. -/
def copySkillFile (cl : Closes) (root : Node) (src dst : Path) : Outcome :=
  match stat root src with
  | .error e => ⟨root, some e⟩
  | .ok _ =>
    match create root dst with
    | .error e => ⟨root, closeErr (some e) none (cl.srcClose src)⟩
    | .ok root1 =>
      match stat root1 src with
      | .error e => ⟨root1, closeErr (some e) (cl.dstClose dst) (cl.srcClose src)⟩
      | .ok (.dir _ _) => ⟨root1, closeErr (some .EISDIR) (cl.dstClose dst) (cl.srcClose src)⟩
      | .ok (.file _ data) =>
        let root2 := write root1 dst data
        match stat root2 src with
        | .error e => ⟨root2, closeErr (some e) (cl.dstClose dst) (cl.srcClose src)⟩
        | .ok srcInfo =>
          match chmod root2 dst srcInfo.Mode with
          | .error e => ⟨root2, closeErr (some e) (cl.dstClose dst) (cl.srcClose src)⟩
          | .ok root3 => ⟨root3, closeErr none (cl.dstClose dst) (cl.srcClose src)⟩

/-- What `SkillsBackup.Backup` prints. -/
inductive Report where
  | skipped
  | notFound
  | count (n : Nat)
deriving DecidableEq, Repr

structure Result where
  fs : Node
  err : Option Err
  report : Option Report

/-- The loop of `SkillsBackup.Backup` over the entries of the source. -/
def copyAll (cl : Closes) (srcDir dstDir : Path) :
    Node → List (String × Node) → Nat → Node × Option Err × Nat
  | root, [], count => (root, none, count)
  | root, (name, info) :: rest, count =>
    if info.IsDir then copyAll cl srcDir dstDir root rest count
    else
      match copySkillFile cl root (srcDir ++ [name]) (dstDir ++ [name]) with
      | ⟨root1, some e⟩ => (root1, some e, count)
      | ⟨root1, none⟩ => copyAll cl srcDir dstDir root1 rest (count + 1)

/-- `(skb *SkillsBackup).Backup(claudeDir, configDir)`. -/
def Backup (skipSkills : Bool) (cl : Closes) (claudeDir configDir : Path)
    (root : Node) : Result :=
  if skipSkills then ⟨root, none, some .skipped⟩
  else
    let srcDir := claudeDir ++ [ "skills" ]
    let dstDir := configDir ++ [ "skills" ]
    if notExist (stat root srcDir) then ⟨root, none, some .notFound⟩
    else
      match mkdirAll root dstDir 0o755 with
      | .error e => ⟨root, some e, none⟩
      | .ok root1 =>
        match readDir root1 srcDir with
        | .error e => ⟨root1, some e, none⟩
        | .ok entries =>
          match copyAll cl srcDir dstDir root1 entries 0 with
          | (root2, some e, _) => ⟨root2, some e, none⟩
          | (root2, none, count) => ⟨root2, none, some (.count count)⟩

end Skills

/-! ## A sample container format and sample trees -/

/-- The fields of a record as numbers. -/
def Tar.Entry.toCode (e : Tar.Entry) : List Nat × Nat × Nat × Nat × List Nat :=
  (e.header.Name.data.map Char.toNat, e.header.Typeflag.toNat, e.header.Mode,
    e.header.Size, e.payload)

def Tar.Entry.ofCode (c : List Nat × Nat × Nat × Nat × List Nat) : Tar.Entry :=
  { header := { Name := String.mk (c.1.map Char.ofNat), Typeflag := Char.ofNat c.2.1,
                Mode := c.2.2.1, Size := c.2.2.2.1 }
    payload := c.2.2.2.2 }

/-- A container format for examples: the records, numbered.  A second number
`k` after it stands for the same container cut `k` bytes into the payload of
its last record. -/
def sampleTarGz : TarGz where
  pack es := [Encodable.encode (es.map Tar.Entry.toCode)]
  unpack bytes :=
    match bytes with
    | [n] =>
      match (Encodable.decode n : Option (List (List Nat × Nat × Nat × Nat × List Nat))) with
      | some cs => .ok ⟨cs.map Tar.Entry.ofCode, .eof⟩
      | none => .error (.other "gzip: invalid header")
    | [n, k] =>
      match (Encodable.decode n : Option (List (List Nat × Nat × Nat × Nat × List Nat))) with
      | some cs =>
        match (cs.map Tar.Entry.ofCode).reverse with
        | last :: before => .ok ⟨before.reverse, .cut last.header (last.payload.take k)⟩
        | [] => .error (.other "gzip: invalid header")
      | none => .error (.other "gzip: invalid header")
    | _ => .error (.other "gzip: invalid header")
  unpack_pack := by
    intro es _
    simp only [Encodable.encodek, List.map_map]
    have hchar : (Char.ofNat ∘ Char.toNat) = id := by
      funext c; simp
    have : (Tar.Entry.ofCode ∘ Tar.Entry.toCode) = id := by
      funext e
      obtain ⟨⟨name, tf, mode, size⟩, payload⟩ := e
      simp only [Function.comp, Tar.Entry.ofCode, Tar.Entry.toCode, List.map_map]
      rw [hchar, List.map_id]
      simp
    rw [this, List.map_id]


/-- A plugin cache: a file, a directory with an empty file and an empty
directory. -/
def sampleCache : Node :=
  .dir 0o750 [("a.txt", .file 0o600 [1, 2, 3]),
    ("sub", .dir 0o700 [("b", .file 0o644 []), ("e", .dir 0o711 [])])]

/-- A machine with the sample cache under `/home/.claude` and an empty
repository at `/home/repo`. -/
def sampleBefore : Node :=
  .dir 0o755 [("home", .dir 0o755
    [(".claude", .dir 0o700 [("plugins", .dir 0o755 [("cache", sampleCache)])]),
     ("repo", .dir 0o755 [])])]

/-- A machine with the container of the sample cache in the repository and an
empty plugin directory. -/
def sampleAfter : Node :=
  .dir 0o755 [("home", .dir 0o755
    [(".claude", .dir 0o700 [("plugins", .dir 0o755 [])]),
     ("repo", .dir 0o755 [("cache", .dir 0o755
        [("plugins-cache.tar.gz",
          .file 0o666 (sampleTarGz.pack (Cache.walk sampleCache [])))])])])]

/-- No `Close` fails. -/
def cleanClosing : Cache.Closing :=
  { tarClose := none, gzipClose := none, fileClose := none, leftover := [] }

/-- The ten bytes of a gzip header, all that reaches the output file before
the writers are closed. -/
def gzipHeaderBytes : Bytes := [31, 139, 8, 0, 0, 0, 0, 0, 0, 255]

/-- Closing the gzip writer fails: the compressed records do not reach the
output file, which keeps the gzip header alone. -/
def failingClosing : Cache.Closing :=
  { tarClose := none
    gzipClose := some (.other "write: no space left on device")
    fileClose := none, leftover := gzipHeaderBytes }

/-- A machine with an empty plugin directory and, in the repository, the
output file `Backup` leaves when the gzip writer fails to close. -/
def sampleBroken : Node :=
  .dir 0o755 [("home", .dir 0o755
    [(".claude", .dir 0o700 [("plugins", .dir 0o755 [])]),
     ("repo", .dir 0o755 [("cache", .dir 0o755
        [("plugins-cache.tar.gz", .file 0o666 gzipHeaderBytes)])])])]

/-- A machine where `/home/.claude/plugins` is a regular file and the
repository is empty. -/
def sampleBlockedSource : Node :=
  .dir 0o755 [("home", .dir 0o755
    [(".claude", .dir 0o700 [("plugins", .file 0o644 [1])]),
     ("repo", .dir 0o755 [])])]

/-- A machine where `/home/repo/cache` is a regular file. -/
def sampleBlockedRepo : Node :=
  .dir 0o755 [("home", .dir 0o755
    [(".claude", .dir 0o700 [("plugins", .dir 0o755 [])]),
     ("repo", .dir 0o755 [("cache", .file 0o644 [1])])])]

/-- A machine with an empty plugin directory and an empty repository. -/
def sampleEmpty : Node :=
  .dir 0o755 [("home", .dir 0o755
    [(".claude", .dir 0o700 [("plugins", .dir 0o755 [])]),
     ("repo", .dir 0o755 [])])]

/-- The record of a directory `cache/d` with mode 0700. -/
def sampleDirEntry : Tar.Entry :=
  { header := { Name := "cache/d", Typeflag := Tar.TypeDir, Mode := 0o700, Size := 0 }
    payload := [] }

/-- The header of a file `cache/a.txt` of three bytes. -/
def sampleFileHeader : Tar.Header :=
  { Name := "cache/a.txt", Typeflag := Tar.TypeReg, Mode := 0o600, Size := 3 }

/-- The record of a file whose name climbs out of the plugin directory. -/
def sampleEscapeEntry : Tar.Entry :=
  { header := { Name := "../../x", Typeflag := Tar.TypeReg, Mode := 0o644, Size := 2 }
    payload := [7, 8] }

/-- A machine with an empty plugin directory and, in the repository, a
container that holds the escaping record. -/
def sampleEscape : Node :=
  .dir 0o755 [("home", .dir 0o755
    [(".claude", .dir 0o700 [("plugins", .dir 0o755 [])]),
     ("repo", .dir 0o755 [("cache", .dir 0o755
        [("plugins-cache.tar.gz",
          .file 0o666 (sampleTarGz.pack [sampleEscapeEntry]))])])])]

/-- The record of the file `cache/a.txt`. -/
def sampleFileEntry : Tar.Entry :=
  { header := sampleFileHeader, payload := [1, 2, 3] }

/-- A machine with an empty plugin directory and, in the repository, the
container of `cache/a.txt` cut one byte into the payload. -/
def sampleCut : Node :=
  .dir 0o755 [("home", .dir 0o755
    [(".claude", .dir 0o700 [("plugins", .dir 0o755 [])]),
     ("repo", .dir 0o755 [("cache", .dir 0o755
        [("plugins-cache.tar.gz",
          .file 0o666 (sampleTarGz.pack [sampleFileEntry] ++ [1]))])])])]

/-- A repository whose artifact directory holds three files and a directory. -/
def sampleArtifacts : Node :=
  .dir 0o755 [("home", .dir 0o755 [("repo", .dir 0o755 [("cache", .dir 0o755
    [("a.tar.gz", .file 0o644 [1]),
     ("b.tar.gz", .file 0o644 [2, 2]),
     ("c.tar.gz", .file 0o644 [3, 3, 3]),
     ("old", .dir 0o755 [("d.tar.gz", .file 0o644 [4])])])])])]

/-- Every `entry.Info()` succeeds. -/
def lstatWorks (_ : Path) : Bool := false

/-- The artifact directory can be read but not searched: every `entry.Info()`
on an entry of it fails. -/
def sampleUnsearchable (p : Path) : Bool :=
  p.dropLast = [ "home", "repo", "cache" ]

/-- The file `b.tar.gz` of the sample artifact directory cannot be deleted. -/
def sampleLocked (p : Path) : Bool :=
  p = [ "home", "repo", "cache", "b.tar.gz" ]

/-- A machine whose skills directory holds three files and a directory. -/
def sampleSkills : Node :=
  .dir 0o755 [("home", .dir 0o755
    [(".claude", .dir 0o700 [("skills", .dir 0o755
      [("a.sh", .file 0o755 [1]),
       ("b.md", .file 0o644 [2, 2]),
       ("c.py", .file 0o700 [3, 3, 3]),
       ("drafts", .dir 0o755 [("d.sh", .file 0o755 [4])])])]),
     ("repo", .dir 0o755 [])])]

/-- No `Close` of a copy fails. -/
def cleanCloses : Skills.Closes :=
  { srcClose := fun _ => none, dstClose := fun _ => none }

/-! ## formatSize: lemmas and claims -/

namespace Cache

theorem roundTenths_near (num den : Nat) (hden : 0 < den) :
    2 * (10 * num) ≤ 2 * (den * roundTenths num den) + den ∧
    2 * (den * roundTenths num den) ≤ 2 * (10 * num) + den := by
  have h1 := Nat.div_add_mod (10 * num) den
  have h2 := Nat.mod_lt (10 * num) hden
  unfold roundTenths
  simp only []
  split
  · rw [Nat.mul_add, Nat.mul_one]
    omega
  · omega

theorem float64OfNat_near (n : Nat) (h : n < 2 ^ 63) :
    float64OfNat n ≤ n + 512 ∧ n ≤ float64OfNat n + 512 := by
  unfold float64OfNat
  split
  · omega
  · rename_i h53
    have hn0 : n ≠ 0 := by omega
    have hlog : Nat.log2 n < 63 := (Nat.log2_lt hn0).2 h
    have hlog2 : 53 ≤ Nat.log2 n := by
      by_contra hc
      have : Nat.log2 n < 53 := by omega
      exact h53 ((Nat.log2_lt hn0).1 this)
    obtain ⟨e, he⟩ : ∃ e, Nat.log2 n - 52 = e := ⟨_, rfl⟩
    rw [he]
    have he1 : 1 ≤ e := by omega
    have he10 : e ≤ 10 := by omega
    have h1 := Nat.div_add_mod n (2 ^ e)
    have h2 := Nat.mod_lt n (Nat.two_pow_pos e)
    have hhalf : 2 ^ e = 2 * 2 ^ (e - 1) := by
      conv_lhs => rw [show e = (e - 1) + 1 by omega]
      rw [pow_succ]; ring
    have hle : 2 ^ (e - 1) ≤ 512 := by
      calc 2 ^ (e - 1) ≤ 2 ^ 9 := Nat.pow_le_pow_right (by norm_num) (by omega)
        _ = 512 := by norm_num
    simp only []
    split
    · rw [Nat.add_mul, Nat.one_mul, Nat.mul_comm]
      omega
    · rw [Nat.mul_comm]
      omega

theorem float64OfNat_exact (n : Nat) (h : n < 2 ^ 53) : float64OfNat n = n := by
  unfold float64OfNat
  rw [if_pos h]

theorem hasSuffix_two (x : String) (a b c d : Char) :
    hasSuffix (x ++ String.mk [a, b]) (String.mk [c, d]) = (d == b && c == a) := by
  simp [hasSuffix, String.data_append, List.isPrefixOf]

theorem hasSuffix_one (x : String) (b c d : Char) :
    hasSuffix (x ++ String.mk [b]) (String.mk [c, d]) =
      (d == b && [c].isPrefixOf x.data.reverse) := by
  simp [hasSuffix, String.data_append, List.isPrefixOf]

set_option maxRecDepth 100000 in
theorem repr_last_digit : ∀ n : Fin 1024,
    [ 'K' ].isPrefixOf (Nat.repr n.val).data.reverse = false ∧
    [ 'M' ].isPrefixOf (Nat.repr n.val).data.reverse = false ∧
    [ 'G' ].isPrefixOf (Nat.repr n.val).data.reverse = false := by
  decide

theorem formatSize_B (n : Nat) (h : n < 1024) : formatSize n = Nat.repr n ++ "B" := by
  unfold formatSize
  have : ¬ ((GB : Nat) : Int) ≤ (n : Int) := by simp [GB, MB, KB]; omega
  have : ¬ ((MB : Nat) : Int) ≤ (n : Int) := by simp [MB, KB]; omega
  have : ¬ ((KB : Nat) : Int) ≤ (n : Int) := by simp [KB]; omega
  simp [*]
  rfl

theorem repr_digit : ∀ d : Fin 10,
    Nat.repr d.val = String.singleton (Nat.digitChar d.val) := by
  decide

/-- The text of `t` tenths, character by character. -/
theorem oneDecimal_text (t : Nat) :
    oneDecimal t =
      Nat.repr (t / 10) ++ "." ++ String.singleton (Nat.digitChar (t % 10)) := by
  unfold oneDecimal
  rw [repr_digit ⟨t % 10, Nat.mod_lt _ (by norm_num)⟩]

/-- The conversion to `float64` from `2^53` on: a value with a significand of
53 bits, at most half a unit in the last place from `n`. -/
theorem float64OfNat_rounds (n : Nat) (h53 : 2 ^ 53 ≤ n) :
    ∃ q e, float64OfNat n = q * 2 ^ e ∧ 2 ^ 52 ≤ q ∧ q ≤ 2 ^ 53 ∧
      2 * (float64OfNat n - n) ≤ 2 ^ e ∧ 2 * (n - float64OfNat n) ≤ 2 ^ e := by
  have hn0 : n ≠ 0 := by
    have : 0 < 2 ^ 53 := by norm_num
    omega
  have hlo := Nat.log2_self_le hn0
  have hhi := @Nat.lt_log2_self n
  have hlog : 53 ≤ Nat.log2 n := by
    by_contra hc
    have h1 : Nat.log2 n < 53 := by omega
    have h2 := (Nat.log2_lt hn0).1 h1
    omega
  obtain ⟨e, he⟩ : ∃ e, Nat.log2 n - 52 = e := ⟨_, rfl⟩
  have hle : Nat.log2 n = e + 52 := by omega
  have he1 : 1 ≤ e := by omega
  rw [hle] at hlo hhi
  have hpos : 0 < 2 ^ e := Nat.two_pow_pos e
  have hq1 : 2 ^ 52 ≤ n / 2 ^ e := by
    rw [Nat.le_div_iff_mul_le hpos, ← Nat.pow_add]
    rw [Nat.add_comm] at hlo
    exact hlo
  have hq2 : n / 2 ^ e < 2 ^ 53 := by
    rw [Nat.div_lt_iff_lt_mul hpos, ← Nat.pow_add]
    have : e + 52 + 1 = 53 + e := by omega
    rw [this] at hhi
    exact hhi
  have h1 := Nat.div_add_mod n (2 ^ e)
  have h2 := Nat.mod_lt n hpos
  have hhalf : 2 ^ e = 2 * 2 ^ (e - 1) := by
    conv_lhs => rw [show e = (e - 1) + 1 by omega]
    rw [pow_succ]; ring
  unfold float64OfNat
  rw [if_neg (by omega), he]
  simp only []
  have hx1 : (n / 2 ^ e + 1) * 2 ^ e = 2 ^ e * (n / 2 ^ e) + 2 ^ e := by ring
  have hx2 : n / 2 ^ e * 2 ^ e = 2 ^ e * (n / 2 ^ e) := by ring
  split
  · refine ⟨n / 2 ^ e + 1, e, rfl, by omega, by omega, ?_, ?_⟩
    · rw [hx1]
      omega
    · rw [hx1]
      omega
  · refine ⟨n / 2 ^ e, e, rfl, hq1, by omega, ?_, ?_⟩
    · rw [hx2]
      omega
    · rw [hx2]
      omega

theorem formatSize_scaled (n : Nat) (u : Nat) (s : String)
    (hu : 0 < u) (h : formatSize n = sprintfF1 (float64OfNat n) u ++ s) :
    ∃ t, formatSize n =
        Nat.repr (t / 10) ++ "." ++ String.singleton (Nat.digitChar (t % 10)) ++ s ∧
      2 * (10 * float64OfNat n) ≤ 2 * (u * t) + u ∧
      2 * (u * t) ≤ 2 * (10 * float64OfNat n) + u := by
  refine ⟨roundTenths (float64OfNat n) u, ?_, roundTenths_near (float64OfNat n) u hu⟩
  rw [h, sprintfF1, oneDecimal_text]

theorem formatSize_KB (n : Nat) (h1 : 1024 ≤ n) (h2 : n < 1024 ^ 2) :
    formatSize n = sprintfF1 (float64OfNat n) 1024 ++ "KB" := by
  unfold formatSize
  have : ¬ ((GB : Nat) : Int) ≤ (n : Int) := by simp [GB, MB, KB]; omega
  have : ¬ ((MB : Nat) : Int) ≤ (n : Int) := by simp [MB, KB]; omega
  have : ((KB : Nat) : Int) ≤ (n : Int) := by simp [KB]; omega
  simp [*]
  rfl

theorem formatSize_MB (n : Nat) (h1 : 1024 ^ 2 ≤ n) (h2 : n < 1024 ^ 3) :
    formatSize n = sprintfF1 (float64OfNat n) (1024 ^ 2) ++ "MB" := by
  unfold formatSize
  have : ¬ ((GB : Nat) : Int) ≤ (n : Int) := by simp [GB, MB, KB]; omega
  have : ((MB : Nat) : Int) ≤ (n : Int) := by simp [MB, KB]; omega
  simp [*]
  rfl

theorem formatSize_GB (n : Nat) (h1 : 1024 ^ 3 ≤ n) :
    formatSize n = sprintfF1 (float64OfNat n) (1024 ^ 3) ++ "GB" := by
  unfold formatSize
  have : ((GB : Nat) : Int) ≤ (n : Int) := by simp [GB, MB, KB]; omega
  simp [*]
  rfl

/-- C3.  `formatSize` gives the documented strings on the documented inputs. -/
theorem formatSize_documented :
    formatSize 0 = "0B" ∧ formatSize 1024 = "1.0KB" ∧ formatSize 1536 = "1.5KB" ∧
    formatSize (1024 * 1024) = "1.0MB" ∧ formatSize (1024 * 1024 * 1024) = "1.0GB" := by
  decide

theorem log2_sample : Nat.log2 2305843009267381043 = 61 := by
  have h1 : Nat.log2 2305843009267381043 < 62 := (Nat.log2_lt (by norm_num)).2 (by norm_num)
  have h2 : ¬ Nat.log2 2305843009267381043 < 61 := fun h =>
    absurd ((Nat.log2_lt (by norm_num)).1 h) (by norm_num)
  omega

theorem float64OfNat_sample : float64OfNat 2305843009267381043 = 2305843009267381248 := by
  unfold float64OfNat
  rw [if_neg (by norm_num), log2_sample]
  decide

/-- C4, as the claim states it, fails: for 2305843009267381043 bytes, in the
`GB` range, the byte count divided by `1024^3` is 2147483648.0499..., whose
nearest tenth is 2147483648.0, and `formatSize` prints `2147483648.1GB`: the
conversion to `float64` has moved the byte count up by 205. -/
theorem formatSize_unit_selection_counterexample :
    (2305843009267381043 : Nat) < 2 ^ 63 ∧
    1024 ^ 3 ≤ (2305843009267381043 : Nat) ∧
    formatSize ((2305843009267381043 : Nat) : Int) = "2147483648.1GB" ∧
    1024 ^ 3 * 21474836480 ≤ 10 * 2305843009267381043 ∧
    2 * (10 * 2305843009267381043 - 1024 ^ 3 * 21474836480) < 1024 ^ 3 ∧
    ¬ 2 * (1024 ^ 3 * 21474836481 - 10 * 2305843009267381043) ≤ 1024 ^ 3 := by
  refine ⟨by norm_num, by norm_num, ?_, by norm_num, by norm_num, by norm_num⟩
  rw [formatSize_GB _ (by norm_num), float64OfNat_sample]
  decide

/-- C4, amended.  Unit selection of `formatSize` for a byte count `n` in the
range of `int64`.  Below 1024 the text is the decimal number and `B`.  From
1024 on it is the decimal number of whole units, a point, one digit and the
suffix of the largest unit not above `n`; the `t` tenths so written are the
tenths nearest to the value divided by the unit.  For `KB` and `MB` that
value is `n`.  For `GB` it is `float64(n)`: `n` itself below `2^53`, and from
`2^53` on a value with a significand of 53 bits at most half a unit in the
last place away from `n`.  The suffix is `KB`, `MB`, `GB` exactly in the
stated ranges. -/
theorem formatSize_unit_selection (n : Nat) (hn : n < 2 ^ 63) :
    (n < 1024 → formatSize n = Nat.repr n ++ "B") ∧
    (1024 ≤ n → n < 1024 ^ 2 → ∃ t,
      formatSize n =
        Nat.repr (t / 10) ++ "." ++ String.singleton (Nat.digitChar (t % 10)) ++ "KB" ∧
      2 * (10 * n) ≤ 2 * (1024 * t) + 1024 ∧ 2 * (1024 * t) ≤ 2 * (10 * n) + 1024) ∧
    (1024 ^ 2 ≤ n → n < 1024 ^ 3 → ∃ t,
      formatSize n =
        Nat.repr (t / 10) ++ "." ++ String.singleton (Nat.digitChar (t % 10)) ++ "MB" ∧
      2 * (10 * n) ≤ 2 * (1024 ^ 2 * t) + 1024 ^ 2 ∧
      2 * (1024 ^ 2 * t) ≤ 2 * (10 * n) + 1024 ^ 2) ∧
    (1024 ^ 3 ≤ n → ∃ f t,
      formatSize n =
        Nat.repr (t / 10) ++ "." ++ String.singleton (Nat.digitChar (t % 10)) ++ "GB" ∧
      2 * (10 * f) ≤ 2 * (1024 ^ 3 * t) + 1024 ^ 3 ∧
      2 * (1024 ^ 3 * t) ≤ 2 * (10 * f) + 1024 ^ 3 ∧
      (n < 2 ^ 53 → f = n) ∧
      (2 ^ 53 ≤ n → ∃ q e, f = q * 2 ^ e ∧ 2 ^ 52 ≤ q ∧ q ≤ 2 ^ 53 ∧
        2 * (f - n) ≤ 2 ^ e ∧ 2 * (n - f) ≤ 2 ^ e)) ∧
    (hasSuffix (formatSize n) "KB" = true ↔ 1024 ≤ n ∧ n < 1024 ^ 2) ∧
    (hasSuffix (formatSize n) "MB" = true ↔ 1024 ^ 2 ≤ n ∧ n < 1024 ^ 3) ∧
    (hasSuffix (formatSize n) "GB" = true ↔ 1024 ^ 3 ≤ n) := by
  have e1 : ("KB" : String) = String.mk [ 'K', 'B' ] := rfl
  have e2 : ("MB" : String) = String.mk [ 'M', 'B' ] := rfl
  have e3 : ("GB" : String) = String.mk [ 'G', 'B' ] := rfl
  have e4 : ("B" : String) = String.mk [ 'B' ] := rfl
  refine ⟨formatSize_B n, ?_, ?_, ?_, ?_⟩
  · intro h1 h2
    obtain ⟨t, ht, hx⟩ := formatSize_scaled n 1024 "KB" (by norm_num) (formatSize_KB n h1 h2)
    rw [float64OfNat_exact n (by omega)] at hx
    exact ⟨t, ht, hx⟩
  · intro h1 h2
    obtain ⟨t, ht, hx⟩ :=
      formatSize_scaled n (1024 ^ 2) "MB" (by norm_num) (formatSize_MB n h1 h2)
    rw [float64OfNat_exact n (by omega)] at hx
    exact ⟨t, ht, hx⟩
  · intro h1
    obtain ⟨t, ht, hx⟩ :=
      formatSize_scaled n (1024 ^ 3) "GB" (by norm_num) (formatSize_GB n h1)
    exact ⟨float64OfNat n, t, ht, hx.1, hx.2, float64OfNat_exact n, float64OfNat_rounds n⟩
  · by_cases hB : n < 1024
    · have hr := repr_last_digit ⟨n, hB⟩
      simp only [] at hr
      rw [formatSize_B n hB, e1, e2, e3, e4, hasSuffix_one, hasSuffix_one, hasSuffix_one,
        hr.1, hr.2.1, hr.2.2]
      simp
      omega
    · by_cases hK : n < 1024 ^ 2
      · rw [formatSize_KB n (by omega) hK, e1, e2, e3, hasSuffix_two, hasSuffix_two,
          hasSuffix_two]
        simp
        omega
      · by_cases hM : n < 1024 ^ 3
        · rw [formatSize_MB n (by omega) hM, e1, e2, e3, hasSuffix_two, hasSuffix_two,
            hasSuffix_two]
          simp
          omega
        · rw [formatSize_GB n (by omega), e1, e2, e3, hasSuffix_two, hasSuffix_two,
            hasSuffix_two]
          simp
          omega


/-- C4, amended, at 1536 bytes. -/
theorem formatSize_unit_selection_witness :
    (1536 : Nat) < 2 ^ 63 ∧
    ∃ t, formatSize ((1536 : Nat) : Int) =
        Nat.repr (t / 10) ++ "." ++ String.singleton (Nat.digitChar (t % 10)) ++ "KB" ∧
      2 * (10 * 1536) ≤ 2 * (1024 * t) + 1024 ∧ 2 * (1024 * t) ≤ 2 * (10 * 1536) + 1024 :=
  ⟨by norm_num,
    (formatSize_unit_selection 1536 (by norm_num)).2.1 (by norm_num) (by norm_num)⟩

end Cache

/-! ## File-system lemmas -/

theorem getKid_putKid (kids : List (String × Node)) (c x : String) (n : Node) :
    getKid (putKid kids c n) x = if x = c then some n else getKid kids x := by
  induction kids with
  | nil => simp [putKid, getKid]
  | cons kv rest ih =>
    obtain ⟨k, v⟩ := kv
    unfold putKid
    by_cases hck : c = k
    · subst hck
      by_cases hxc : x = c
      · simp [getKid, hxc]
      · simp [getKid, hxc]
    · rw [if_neg hck]
      by_cases hlt : nameLt c k = true
      · rw [if_pos hlt]
        simp [getKid]
      · rw [if_neg hlt]
        by_cases hxk : x = k
        · have hxc : ¬ x = c := fun h => hck (h ▸ hxk)
          simp [getKid, hxk, Ne.symm hck]
        · simp [getKid, hxk, ih]

theorem getKid_dropKid (kids : List (String × Node)) (c x : String) :
    getKid (dropKid kids c) x = if x = c then none else getKid kids x := by
  induction kids with
  | nil => simp [dropKid, getKid]
  | cons kv rest ih =>
    obtain ⟨k, v⟩ := kv
    unfold dropKid
    by_cases hkc : k = c
    · subst hkc
      rw [if_pos rfl, ih]
      by_cases h : x = k
      · simp [h]
      · simp [getKid, h]
    · rw [if_neg hkc]
      by_cases hxk : x = k
      · simp [getKid, hxk, hkc]
      · simp [getKid, hxk, ih]

theorem attrAt_nil (n : Node) : attrAt n [] = some n.attr := by
  simp [attrAt, stat]

theorem attrAt_file_cons (m : Nat) (d : Bytes) (c : String) (rest : Path) :
    attrAt (.file m d) (c :: rest) = none := by
  simp [attrAt, stat]

theorem attrAt_dir_cons (m : Nat) (kids : List (String × Node)) (c : String) (rest : Path) :
    attrAt (.dir m kids) (c :: rest) =
      match getKid kids c with
      | none => none
      | some k => attrAt k rest := by
  simp only [attrAt, stat]
  cases getKid kids c <;> simp

theorem stat_append (p q : Path) : ∀ (root t : Node), stat root p = .ok t →
    stat root (p ++ q) = stat t q := by
  induction p with
  | nil => intro root t h; simp [stat] at h; subst h; rfl
  | cons c rest ih =>
    intro root t h
    cases root with
    | file m d => simp [stat] at h
    | dir m kids =>
      simp only [List.cons_append, stat] at h ⊢
      cases hk : getKid kids c with
      | none => simp [hk] at h
      | some k =>
        simp only [hk] at h ⊢
        exact ih k t h

theorem attrAt_append (p q : Path) (root t : Node) (h : stat root p = .ok t) :
    attrAt root (p ++ q) = attrAt t q := by
  simp only [attrAt, stat_append p q root t h]

theorem attrAt_mkdirAll (p : Path) : ∀ (root root' : Node) (perm : Nat),
    mkdirAll root p perm = .ok root' →
    ∀ q, attrAt root' q =
      if attrAt root q = none ∧ q <+: p then some (.dir perm) else attrAt root q := by
  induction p with
  | nil =>
    intro root root' perm h q
    cases root with
    | file m d => simp [mkdirAll] at h
    | dir m kids =>
      simp [mkdirAll] at h
      subst h
      by_cases hq : q = []
      · subst hq; simp [attrAt_nil]
      · simp [hq]
  | cons c rest ih =>
    intro root root' perm h q
    cases root with
    | file m d => simp [mkdirAll] at h
    | dir m kids =>
      simp only [mkdirAll] at h
      cases hk : getKid kids c with
      | some k =>
        simp only [hk] at h
        cases hm : mkdirAll k rest perm with
        | error e => simp [hm] at h
        | ok k' =>
          simp only [hm, Except.ok.injEq] at h
          subst h
          cases q with
          | nil => simp [attrAt_nil, Node.attr]
          | cons x q' =>
            rw [attrAt_dir_cons, attrAt_dir_cons, getKid_putKid]
            by_cases hx : x = c
            · subst hx
              simp only [if_true, hk, List.cons_prefix_cons, true_and]
              exact ih k k' perm hm q'
            · simp [hx, List.cons_prefix_cons]
      | none =>
        simp only [hk] at h
        cases hm : mkdirAll (.dir perm []) rest perm with
        | error e => simp [hm] at h
        | ok k' =>
          simp only [hm, Except.ok.injEq] at h
          subst h
          cases q with
          | nil => simp [attrAt_nil, Node.attr]
          | cons x q' =>
            rw [attrAt_dir_cons, attrAt_dir_cons, getKid_putKid]
            by_cases hx : x = c
            · subst hx
              simp only [if_true, hk, List.cons_prefix_cons, true_and]
              rw [ih _ k' perm hm q']
              cases q' with
              | nil => simp [attrAt_nil, Node.attr]
              | cons y q'' => simp [attrAt_dir_cons, getKid]
            · simp [hx, List.cons_prefix_cons]

theorem attrAt_create (p : Path) : ∀ (root root' : Node), create root p = .ok root' →
    (∃ m, attrAt root' p = some (.file m []) ∧
      (∀ m0 d0, attrAt root p = some (.file m0 d0) → m = m0) ∧
      (attrAt root p = none → m = 0o666)) ∧
    ∀ q, q ≠ p → attrAt root' q = attrAt root q := by
  induction p with
  | nil =>
    intro root root' h
    cases root with
    | dir m kids => simp [create] at h
    | file m d =>
      simp [create] at h
      subst h
      refine ⟨⟨m, by simp [attrAt_nil, Node.attr], ?_, ?_⟩, ?_⟩
      · intro m0 d0 h0
        simp [attrAt_nil, Node.attr] at h0
        exact h0.1
      · intro h0
        simp [attrAt_nil] at h0
      · intro q hq
        cases q with
        | nil => exact absurd rfl hq
        | cons x q' => simp [attrAt_file_cons]
  | cons c rest ih =>
    intro root root' h
    cases root with
    | file m d => simp [create] at h
    | dir m kids =>
      simp only [create] at h
      cases hk : getKid kids c with
      | some k =>
        simp only [hk] at h
        cases hm : create k rest with
        | error e => simp [hm] at h
        | ok k' =>
          simp only [hm, Except.ok.injEq] at h
          subst h
          obtain ⟨⟨m1, h1, h2, h3⟩, h4⟩ := ih k k' hm
          refine ⟨⟨m1, ?_, ?_, ?_⟩, ?_⟩
          · simp [attrAt_dir_cons, getKid_putKid, h1]
          · intro m0 d0 h0
            simp only [attrAt_dir_cons, hk] at h0
            exact h2 m0 d0 h0
          · intro h0
            simp only [attrAt_dir_cons, hk] at h0
            exact h3 h0
          · intro q hq
            cases q with
            | nil => simp [attrAt_nil, Node.attr]
            | cons x q' =>
              rw [attrAt_dir_cons, attrAt_dir_cons, getKid_putKid]
              by_cases hx : x = c
              · subst hx
                simp only [if_true, hk]
                exact h4 q' (fun hh => hq (by rw [hh]))
              · simp [hx]
      | none =>
        simp only [hk] at h
        cases rest with
        | cons y r => simp at h
        | nil =>
          simp only [Except.ok.injEq] at h
          subst h
          refine ⟨⟨0o666, ?_, ?_, ?_⟩, ?_⟩
          · simp [attrAt_dir_cons, getKid_putKid, attrAt_nil, Node.attr]
          · intro m0 d0 h0
            simp [attrAt_dir_cons, hk] at h0
          · intro _; rfl
          · intro q hq
            cases q with
            | nil => simp [attrAt_nil, Node.attr]
            | cons x q' =>
              rw [attrAt_dir_cons, attrAt_dir_cons, getKid_putKid]
              by_cases hx : x = c
              · subst hx
                simp only [if_true, hk]
                cases q' with
                | nil => exact absurd rfl hq
                | cons y q'' => simp [attrAt_file_cons]
              · simp [hx]

theorem attrAt_modify (f : Node → Node) (hf : keepsBelow f) (p : Path) : ∀ (root : Node) (q : Path),
    attrAt (modify f root p) q =
      if q = p then (match stat root p with
        | .ok n => some (f n).attr
        | .error _ => none)
      else attrAt root q := by
  induction p with
  | nil =>
    intro root q
    cases q with
    | nil => simp [modify, attrAt_nil, stat]
    | cons x q' => simp [modify, hf root x q']
  | cons c rest ih =>
    intro root q
    cases root with
    | file m d =>
      simp only [modify, stat]
      by_cases hq : q = c :: rest
      · subst hq; simp [attrAt_file_cons]
      · simp [hq]
    | dir m kids =>
      simp only [modify, stat]
      cases hk : getKid kids c with
      | none =>
        simp only
        by_cases hq : q = c :: rest
        · subst hq; simp [attrAt_dir_cons, hk]
        · simp [hq]
      | some k =>
        simp only
        cases q with
        | nil => simp [attrAt_nil, Node.attr]
        | cons x q' =>
          rw [attrAt_dir_cons, attrAt_dir_cons, getKid_putKid]
          by_cases hx : x = c
          · subst hx
            simp only [if_true, hk, List.cons.injEq, true_and]
            exact ih k q'
          · simp [hx]

theorem attrAt_unlink (p : Path) : ∀ (root : Node) (q : Path),
    attrAt (unlink root p) q = if p ≠ [] ∧ p <+: q then none else attrAt root q := by
  induction p with
  | nil => intro root q; simp [unlink]
  | cons c rest ih =>
    intro root q
    cases root with
    | file m d =>
      simp only [unlink]
      cases q with
      | nil => simp
      | cons x q' => simp [attrAt_file_cons]
    | dir m kids =>
      cases rest with
      | nil =>
        simp only [unlink]
        cases q with
        | nil => simp [attrAt_nil, Node.attr]
        | cons x q' =>
          rw [attrAt_dir_cons, attrAt_dir_cons, getKid_dropKid]
          by_cases hx : x = c
          · subst hx; simp
          · have : ¬ c = x := fun h => hx h.symm
            simp [hx, this, List.cons_prefix_cons]
      | cons c' rest' =>
        simp only [unlink]
        cases hk : getKid kids c with
        | none =>
          simp only
          cases q with
          | nil => simp
          | cons x q' =>
            rw [attrAt_dir_cons]
            by_cases hx : x = c
            · subst hx; simp [hk]
            · have : ¬ c = x := fun h => hx h.symm
              simp [this, List.cons_prefix_cons]
        | some k =>
          simp only
          cases q with
          | nil => simp [attrAt_nil, Node.attr]
          | cons x q' =>
            rw [attrAt_dir_cons, attrAt_dir_cons, getKid_putKid]
            by_cases hx : x = c
            · subst hx
              simp only [if_true, hk]
              rw [ih k q']
              simp [List.cons_prefix_cons]
            · have : ¬ c = x := fun h => hx h.symm
              simp [hx, this, List.cons_prefix_cons]


theorem mkdirAll_ok (p : Path) : ∀ (root : Node) (perm : Nat),
    (∀ q, q <+: p → ∀ m d, attrAt root q ≠ some (.file m d)) →
    ∃ root', mkdirAll root p perm = .ok root' := by
  induction p with
  | nil =>
    intro root perm h
    cases root with
    | file m d => exact absurd (attrAt_nil _) (h [] List.nil_prefix m d)
    | dir m kids => exact ⟨_, rfl⟩
  | cons c rest ih =>
    intro root perm h
    cases root with
    | file m d => exact absurd (attrAt_nil _) (h [] List.nil_prefix m d)
    | dir m kids =>
      simp only [mkdirAll]
      cases hk : getKid kids c with
      | some k =>
        have hk' : ∀ q, q <+: rest → ∀ m d, attrAt k q ≠ some (.file m d) := by
          intro q hq m' d'
          have := h (c :: q) (List.cons_prefix_cons.2 ⟨rfl, hq⟩) m' d'
          simpa [attrAt_dir_cons, hk] using this
        obtain ⟨k', hk''⟩ := ih k perm hk'
        simp only [hk'']
        exact ⟨_, rfl⟩
      | none =>
        have hk' : ∀ q, q <+: rest → ∀ m d, attrAt (.dir perm []) q ≠ some (.file m d) := by
          intro q hq m' d'
          cases q with
          | nil => simp [attrAt_nil, Node.attr]
          | cons x q' => simp [attrAt_dir_cons, getKid]
        obtain ⟨k', hk''⟩ := ih (.dir perm []) perm hk'
        simp only [hk'']
        exact ⟨_, rfl⟩

theorem mkdirAll_error (p : Path) : ∀ (root : Node) (perm : Nat) (e : Err),
    mkdirAll root p perm = .error e →
    e = .ENOTDIR ∧ ∃ q m d, q <+: p ∧ attrAt root q = some (.file m d) := by
  induction p with
  | nil =>
    intro root perm e h
    cases root with
    | file m d =>
      simp [mkdirAll] at h
      exact ⟨h.symm, [], m, d, List.nil_prefix, by simp [attrAt_nil, Node.attr]⟩
    | dir m kids => simp [mkdirAll] at h
  | cons c rest ih =>
    intro root perm e h
    cases root with
    | file m d =>
      simp [mkdirAll] at h
      exact ⟨h.symm, [], m, d, List.nil_prefix, by simp [attrAt_nil, Node.attr]⟩
    | dir m kids =>
      simp only [mkdirAll] at h
      cases hk : getKid kids c with
      | some k =>
        simp only [hk] at h
        cases hm : mkdirAll k rest perm with
        | ok k' => simp [hm] at h
        | error e' =>
          simp only [hm, Except.error.injEq] at h
          subst h
          obtain ⟨he, q, m', d', hq, hq'⟩ := ih k perm e' hm
          exact ⟨he, c :: q, m', d', List.cons_prefix_cons.2 ⟨rfl, hq⟩,
            by simp [attrAt_dir_cons, hk, hq']⟩
      | none =>
        simp only [hk] at h
        cases hm : mkdirAll (.dir perm []) rest perm with
        | ok k' => simp [hm] at h
        | error e' =>
          exfalso
          obtain ⟨_, q, m', d', hq, hq'⟩ := ih _ perm e' hm
          cases q with
          | nil => simp [attrAt_nil, Node.attr] at hq'
          | cons x q' => simp [attrAt_dir_cons, getKid] at hq'

theorem create_ok (p : Path) : ∀ (root : Node), p ≠ [] →
    (∃ m, attrAt root p.dropLast = some (.dir m)) →
    (∀ m, attrAt root p ≠ some (.dir m)) →
    ∃ root', create root p = .ok root' := by
  induction p with
  | nil => intro root h; exact absurd rfl h
  | cons c rest ih =>
    intro root _ hpar hnd
    cases root with
    | file m d =>
      exfalso
      obtain ⟨m', hm'⟩ := hpar
      cases rest with
      | nil => simp [attrAt_nil, Node.attr] at hm'
      | cons y r => simp [attrAt_file_cons] at hm'
    | dir m kids =>
      simp only [create]
      cases hk : getKid kids c with
      | none =>
        cases rest with
        | nil => exact ⟨_, rfl⟩
        | cons y r =>
          exfalso
          obtain ⟨m', hm'⟩ := hpar
          simp [attrAt_dir_cons, hk] at hm'
      | some k =>
        cases rest with
        | nil =>
          cases k with
          | dir m' kids' =>
            exfalso
            exact hnd m' (by simp [attrAt_dir_cons, hk, attrAt_nil, Node.attr])
          | file m' d' =>
            simp only [create]
            exact ⟨_, rfl⟩
        | cons y r =>
          have h1 : ∃ m, attrAt k (y :: r).dropLast = some (.dir m) := by
            obtain ⟨m', hm'⟩ := hpar
            exact ⟨m', by simpa [attrAt_dir_cons, hk] using hm'⟩
          have h2 : ∀ m, attrAt k (y :: r) ≠ some (.dir m) := by
            intro m'
            have := hnd m'
            simpa [attrAt_dir_cons, hk] using this
          obtain ⟨k', hk'⟩ := ih k (by simp) h1 h2
          simp only [hk']
          exact ⟨_, rfl⟩

theorem keepsBelow_write (data : Bytes) :
    keepsBelow (Node.setData data) := by
  intro n c rest
  cases n <;> simp [Node.setData, attrAt_file_cons]

theorem keepsBelow_chmod (mode : Nat) :
    keepsBelow (Node.setMode mode) := by
  intro n c rest
  cases n <;> simp [Node.setMode, attrAt_file_cons, attrAt_dir_cons]

theorem attrAt_write (root : Node) (p q : Path) (data : Bytes) :
    attrAt (write root p data) q =
      if q = p then (match attrAt root p with
        | some (.file m _) => some (.file m data)
        | other => other)
      else attrAt root q := by
  unfold write
  rw [attrAt_modify _ (keepsBelow_write data)]
  by_cases hq : q = p
  · simp only [hq, if_true, attrAt]
    cases hs : stat root p with
    | error e => simp
    | ok n => cases n <;> simp [Node.attr, Node.setData]
  · simp [hq]

theorem attrAt_chmod (root root' : Node) (p q : Path) (mode : Nat)
    (h : chmod root p mode = .ok root') :
    attrAt root' q =
      if q = p then (match attrAt root p with
        | some (.file _ d) => some (.file mode d)
        | some (.dir _) => some (.dir mode)
        | none => none)
      else attrAt root q := by
  unfold chmod at h
  cases hs : stat root p with
  | error e => simp [hs] at h
  | ok n =>
    simp only [hs, Except.ok.injEq] at h
    subst h
    rw [attrAt_modify _ (keepsBelow_chmod mode)]
    by_cases hq : q = p
    · simp only [hq, if_true, attrAt, hs]
      cases n <;> simp [Node.attr, Node.setMode]
    · simp [hq]


theorem stat_mkdirAll_frame (f : Path) : ∀ (root root' : Node) (perm : Nat) (p : Path) (t : Node),
    mkdirAll root f perm = .ok root' → stat root p = .ok t → ¬ p <+: f →
    stat root' p = .ok t := by
  induction f with
  | nil =>
    intro root root' perm p t h hs _
    cases root with
    | file m d => simp [mkdirAll] at h
    | dir m kids =>
      simp [mkdirAll] at h
      subst h
      exact hs
  | cons c rest ih =>
    intro root root' perm p t h hs hp
    cases root with
    | file m d => simp [mkdirAll] at h
    | dir m kids =>
      cases p with
      | nil => exact absurd List.nil_prefix hp
      | cons x p' =>
        simp only [stat] at hs
        simp only [mkdirAll] at h
        by_cases hx : x = c
        · subst hx
          cases hk : getKid kids x with
          | none => simp [hk] at hs
          | some k =>
            simp only [hk] at h hs
            cases hm : mkdirAll k rest perm with
            | error e => simp [hm] at h
            | ok k' =>
              simp only [hm, Except.ok.injEq] at h
              subst h
              simp only [stat, getKid_putKid, if_true]
              exact ih k k' perm p' t hm hs (fun hh => hp (List.cons_prefix_cons.2 ⟨rfl, hh⟩))
        · have hg : ∀ k', getKid (putKid kids c k') x = getKid kids x := by
            intro k'; rw [getKid_putKid, if_neg hx]
          cases hk : getKid kids c with
          | some k =>
            simp only [hk] at h
            cases hm : mkdirAll k rest perm with
            | error e => simp [hm] at h
            | ok k' =>
              simp only [hm, Except.ok.injEq] at h
              subst h
              simp only [stat, hg]
              exact hs
          | none =>
            simp only [hk] at h
            cases hm : mkdirAll (.dir perm []) rest perm with
            | error e => simp [hm] at h
            | ok k' =>
              simp only [hm, Except.ok.injEq] at h
              subst h
              simp only [stat, hg]
              exact hs

theorem stat_create_frame (f : Path) : ∀ (root root' : Node) (p : Path) (t : Node),
    create root f = .ok root' → stat root p = .ok t → ¬ p <+: f →
    stat root' p = .ok t := by
  induction f with
  | nil =>
    intro root root' p t h hs hp
    cases root with
    | dir m kids => simp [create] at h
    | file m d =>
      cases p with
      | nil => exact absurd List.nil_prefix hp
      | cons x p' => simp [stat] at hs
  | cons c rest ih =>
    intro root root' p t h hs hp
    cases root with
    | file m d => simp [create] at h
    | dir m kids =>
      cases p with
      | nil => exact absurd List.nil_prefix hp
      | cons x p' =>
        simp only [stat] at hs
        simp only [create] at h
        by_cases hx : x = c
        · subst hx
          cases hk : getKid kids x with
          | none => simp [hk] at hs
          | some k =>
            simp only [hk] at h hs
            cases hm : create k rest with
            | error e => simp [hm] at h
            | ok k' =>
              simp only [hm, Except.ok.injEq] at h
              subst h
              simp only [stat, getKid_putKid, if_true]
              exact ih k k' p' t hm hs (fun hh => hp (List.cons_prefix_cons.2 ⟨rfl, hh⟩))
        · have hg : ∀ k', getKid (putKid kids c k') x = getKid kids x := by
            intro k'; rw [getKid_putKid, if_neg hx]
          cases hk : getKid kids c with
          | some k =>
            simp only [hk] at h
            cases hm : create k rest with
            | error e => simp [hm] at h
            | ok k' =>
              simp only [hm, Except.ok.injEq] at h
              subst h
              simp only [stat, hg]
              exact hs
          | none =>
            simp only [hk] at h
            cases rest with
            | cons y r => simp at h
            | nil =>
              simp only [Except.ok.injEq] at h
              subst h
              simp only [stat, hg]
              exact hs

theorem nonDirs_putKid_dir (kids : List (String × Node)) (c : String) (n : Node)
    (hn : n.IsDir = true)
    (hc : ∀ k, getKid kids c = some k → k.IsDir = true) :
    nonDirs (putKid kids c n) = nonDirs kids := by
  induction kids with
  | nil => simp [putKid, nonDirs, hn]
  | cons kv rest ih =>
    obtain ⟨k, v⟩ := kv
    unfold putKid
    by_cases hck : c = k
    · subst hck
      have hv : v.IsDir = true := hc v (by simp [getKid])
      simp [nonDirs, List.filter, hn, hv]
    · rw [if_neg hck]
      by_cases hlt : nameLt c k = true
      · rw [if_pos hlt]
        simp [nonDirs, List.filter, hn]
      · rw [if_neg hlt]
        have hc' : ∀ k', getKid rest c = some k' → k'.IsDir = true := by
          intro k' hk'
          exact hc k' (by simp [getKid, hck, hk'])
        have := ih hc'
        simp only [nonDirs, List.filter] at this ⊢
        rw [this]

theorem mkdirAll_isDir (f : Path) (root root' : Node) (perm : Nat)
    (h : mkdirAll root f perm = .ok root') : root.IsDir = true ∧ root'.IsDir = true := by
  cases root with
  | file m d => simp [mkdirAll] at h
  | dir m kids =>
    cases f with
    | nil => simp [mkdirAll] at h; subst h; simp [Node.IsDir]
    | cons c rest =>
      simp only [mkdirAll] at h
      cases hk : getKid kids c with
      | some k =>
        simp only [hk] at h
        cases hm : mkdirAll k rest perm with
        | error e => simp [hm] at h
        | ok k' => simp only [hm, Except.ok.injEq] at h; subst h; simp [Node.IsDir]
      | none =>
        simp only [hk] at h
        cases hm : mkdirAll (.dir perm []) rest perm with
        | error e => simp [hm] at h
        | ok k' => simp only [hm, Except.ok.injEq] at h; subst h; simp [Node.IsDir]

theorem readDir_mkdirAll (f : Path) : ∀ (root root' : Node) (perm : Nat) (p : Path)
    (kids : List (String × Node)),
    mkdirAll root f perm = .ok root' → readDir root p = .ok kids →
    ∃ kids', readDir root' p = .ok kids' ∧ nonDirs kids' = nonDirs kids := by
  induction f with
  | nil =>
    intro root root' perm p kids h hs
    cases root with
    | file m d => simp [mkdirAll] at h
    | dir m kids0 =>
      simp [mkdirAll] at h
      subst h
      exact ⟨kids, hs, rfl⟩
  | cons c rest ih =>
    intro root root' perm p kids h hs
    cases root with
    | file m d => simp [mkdirAll] at h
    | dir m kids0 =>
      simp only [mkdirAll] at h
      cases p with
      | nil =>
        simp [readDir, stat] at hs
        subst hs
        cases hk : getKid kids0 c with
        | some k =>
          simp only [hk] at h
          cases hm : mkdirAll k rest perm with
          | error e => simp [hm] at h
          | ok k' =>
            simp only [hm, Except.ok.injEq] at h
            subst h
            refine ⟨putKid kids0 c k', by simp [readDir, stat], ?_⟩
            apply nonDirs_putKid_dir _ _ _ (mkdirAll_isDir _ _ _ _ hm).2
            intro k0 hk0
            rw [hk] at hk0
            cases hk0
            exact (mkdirAll_isDir _ _ _ _ hm).1
        | none =>
          simp only [hk] at h
          cases hm : mkdirAll (.dir perm []) rest perm with
          | error e => simp [hm] at h
          | ok k' =>
            simp only [hm, Except.ok.injEq] at h
            subst h
            refine ⟨putKid kids0 c k', by simp [readDir, stat], ?_⟩
            apply nonDirs_putKid_dir _ _ _ (mkdirAll_isDir _ _ _ _ hm).2
            intro k0 hk0
            rw [hk] at hk0
            cases hk0
      | cons x p' =>
        have hrd : ∀ kk, readDir (.dir m kk) (x :: p') =
            match getKid kk x with
            | none => .error .ENOENT
            | some k => readDir k p' := by
          intro kk
          simp only [readDir, stat]
          cases getKid kk x <;> rfl
        rw [hrd] at hs
        by_cases hx : x = c
        · subst hx
          cases hk : getKid kids0 x with
          | none => simp [hk] at hs
          | some k =>
            simp only [hk] at h hs
            cases hm : mkdirAll k rest perm with
            | error e => simp [hm] at h
            | ok k' =>
              simp only [hm, Except.ok.injEq] at h
              subst h
              rw [hrd, getKid_putKid, if_pos rfl]
              exact ih k k' perm p' kids hm hs
        · have hg : ∀ k', getKid (putKid kids0 c k') x = getKid kids0 x := by
            intro k'; rw [getKid_putKid, if_neg hx]
          cases hk : getKid kids0 c with
          | some k =>
            simp only [hk] at h
            cases hm : mkdirAll k rest perm with
            | error e => simp [hm] at h
            | ok k' =>
              simp only [hm, Except.ok.injEq] at h
              subst h
              rw [hrd, hg]
              exact ⟨kids, hs, rfl⟩
          | none =>
            simp only [hk] at h
            cases hm : mkdirAll (.dir perm []) rest perm with
            | error e => simp [hm] at h
            | ok k' =>
              simp only [hm, Except.ok.injEq] at h
              subst h
              rw [hrd, hg]
              exact ⟨kids, hs, rfl⟩


theorem attrAt_prefix_dir (p : Path) : ∀ (root : Node) (q : Path) (a : Attr),
    attrAt root p = some a → q <+: p → q ≠ p → ∃ m, attrAt root q = some (.dir m) := by
  induction p with
  | nil =>
    intro root q a _ hq hne
    exact absurd (List.prefix_nil.1 hq) hne
  | cons c rest ih =>
    intro root q a h hq hne
    cases root with
    | file m d => simp [attrAt_file_cons] at h
    | dir m kids =>
      cases q with
      | nil => exact ⟨m, by simp [attrAt_nil, Node.attr]⟩
      | cons x q' =>
        obtain ⟨hx, hq'⟩ := List.cons_prefix_cons.1 hq
        subst hx
        rw [attrAt_dir_cons] at h ⊢
        cases hk : getKid kids x with
        | none => simp [hk] at h
        | some k =>
          simp only [hk] at h ⊢
          exact ih k q' a h hq' (fun hh => hne (by rw [hh]))

theorem attrAt_none_of_prefix (root : Node) (p q : Path)
    (h : attrAt root q = none) (hq : q <+: p) : attrAt root p = none := by
  by_contra hp
  obtain ⟨a, ha⟩ := Option.ne_none_iff_exists'.1 hp
  by_cases hne : q = p
  · subst hne; simp [h] at ha
  · obtain ⟨m, hm⟩ := attrAt_prefix_dir p root q a ha hq hne
    simp [h] at hm

/-- Making a directory whose parent is there and which itself is not. -/
theorem mkdirAll_new (root : Node) (p : Path) (perm : Nat) (hp : p ≠ [])
    (hpar : ∃ m, attrAt root p.dropLast = some (.dir m)) (hnone : attrAt root p = none) :
    ∃ root', mkdirAll root p perm = .ok root' ∧
      ∀ q, attrAt root' q = if q = p then some (.dir perm) else attrAt root q := by
  obtain ⟨m, hm⟩ := hpar
  have hpre : ∀ q, q <+: p → q ≠ p → ∃ m', attrAt root q = some (.dir m') := by
    intro q hq hne
    have hq' : q <+: p.dropLast := by
      obtain ⟨t, ht⟩ := hq
      have htn : t ≠ [] := by
        intro h0; subst h0; simp at ht; exact hne ht
      rw [← ht, List.dropLast_append_of_ne_nil _ htn]
      exact List.prefix_append _ _
    by_cases heq : q = p.dropLast
    · exact ⟨m, heq ▸ hm⟩
    · exact attrAt_prefix_dir _ root q _ hm hq' heq
  obtain ⟨root', hr⟩ := mkdirAll_ok p root perm (by
    intro q hq m' d' hh
    by_cases hne : q = p
    · subst hne; simp [hnone] at hh
    · obtain ⟨m'', hm''⟩ := hpre q hq hne
      simp [hm''] at hh)
  refine ⟨root', hr, ?_⟩
  intro q
  rw [attrAt_mkdirAll p root root' perm hr q]
  by_cases hqp : q = p
  · subst hqp; simp [hnone]
  · rw [if_neg hqp]
    by_cases hq : q <+: p
    · obtain ⟨m'', hm''⟩ := hpre q hq hqp
      simp [hm'']
    · simp [hq]

/-- Making a directory that is there already. -/
theorem mkdirAll_old (root : Node) (p : Path) (perm : Nat)
    (hdir : ∃ m, attrAt root p = some (.dir m)) :
    ∃ root', mkdirAll root p perm = .ok root' ∧ ∀ q, attrAt root' q = attrAt root q := by
  obtain ⟨m, hm⟩ := hdir
  have hpre : ∀ q, q <+: p → ∃ m', attrAt root q = some (.dir m') := by
    intro q hq
    by_cases heq : q = p
    · exact ⟨m, heq ▸ hm⟩
    · exact attrAt_prefix_dir _ root q _ hm hq heq
  obtain ⟨root', hr⟩ := mkdirAll_ok p root perm (by
    intro q hq m' d' hh
    obtain ⟨m'', hm''⟩ := hpre q hq
    simp [hm''] at hh)
  refine ⟨root', hr, ?_⟩
  intro q
  rw [attrAt_mkdirAll p root root' perm hr q]
  by_cases hq : q <+: p
  · obtain ⟨m'', hm''⟩ := hpre q hq
    simp [hm'']
  · simp [hq]


theorem mkdirAll_post (p : Path) : ∀ (root root' : Node) (perm : Nat),
    mkdirAll root p perm = .ok root' → ∃ m, attrAt root' p = some (.dir m) := by
  induction p with
  | nil =>
    intro root root' perm h
    cases root with
    | file m d => simp [mkdirAll] at h
    | dir m kids =>
      simp [mkdirAll] at h
      subst h
      exact ⟨m, by simp [attrAt_nil, Node.attr]⟩
  | cons c rest ih =>
    intro root root' perm h
    cases root with
    | file m d => simp [mkdirAll] at h
    | dir m kids =>
      simp only [mkdirAll] at h
      cases hk : getKid kids c with
      | some k =>
        simp only [hk] at h
        cases hm : mkdirAll k rest perm with
        | error e => simp [hm] at h
        | ok k' =>
          simp only [hm, Except.ok.injEq] at h
          subst h
          obtain ⟨m', hm'⟩ := ih k k' perm hm
          exact ⟨m', by simp [attrAt_dir_cons, getKid_putKid, hm']⟩
      | none =>
        simp only [hk] at h
        cases hm : mkdirAll (.dir perm []) rest perm with
        | error e => simp [hm] at h
        | ok k' =>
          simp only [hm, Except.ok.injEq] at h
          subst h
          obtain ⟨m', hm'⟩ := ih _ k' perm hm
          exact ⟨m', by simp [attrAt_dir_cons, getKid_putKid, hm']⟩


/-! ## Names and joins: lemmas -/

namespace Filepath

theorem splitSlash_plain (w : List Char) (hw : '/' ∉ w) : splitSlash w = [w] := by
  induction w with
  | nil => rfl
  | cons c cs ih =>
    have hc : c ≠ '/' := fun h => hw (by simp [h])
    have hcs : '/' ∉ cs := fun h => hw (by simp [h])
    simp [splitSlash, hc, ih hcs]

theorem splitSlash_append (w rest : List Char) (hw : '/' ∉ w) :
    splitSlash (w ++ '/' :: rest) = w :: splitSlash rest := by
  induction w with
  | nil => simp [splitSlash]
  | cons c cs ih =>
    have hc : c ≠ '/' := fun h => hw (by simp [h])
    have hcs : '/' ∉ cs := fun h => hw (by simp [h])
    simp [splitSlash, hc, ih hcs]

theorem splitSlash_intercalate (ws : List (List Char)) (hne : ws ≠ [])
    (hws : ∀ w ∈ ws, '/' ∉ w) :
    splitSlash (List.intercalate [ '/' ] ws) = ws := by
  induction ws with
  | nil => exact absurd rfl hne
  | cons w rest ih =>
    cases rest with
    | nil =>
      simp [List.intercalate, List.intersperse]
      exact splitSlash_plain w (hws w (by simp))
    | cons w' rest' =>
      have h1 : List.intercalate [ '/' ] (w :: w' :: rest') =
          w ++ '/' :: List.intercalate [ '/' ] (w' :: rest') := by
        simp [List.intercalate, List.intersperse]
      rw [h1, splitSlash_append w _ (hws w (by simp)),
        ih (by simp) (fun x hx => hws x (by simp [hx]))]

theorem components_joinSlash (names : List String) (hne : names ≠ [])
    (hn : ∀ n ∈ names, '/' ∉ n.data) : components (joinSlash names) = names := by
  unfold components joinSlash
  simp only []
  rw [splitSlash_intercalate _ (by simpa using hne)]
  · rw [List.map_map]
    have : (String.mk ∘ String.data) = id := by
      funext s; rfl
    rw [this, List.map_id]
  · intro w hw
    simp only [List.mem_map] at hw
    obtain ⟨n, hn1, hn2⟩ := hw
    rw [← hn2]
    exact hn n hn1

theorem cleanStep_plain (r : Bool) (stack : List String) (c : String) (hc : plainName c) :
    cleanStep r stack c = stack ++ [c] := by
  obtain ⟨h1, h2, h3, _⟩ := hc
  simp [cleanStep, h1, h2, h3]

theorem foldl_cleanStep_plain (r : Bool) (names : List String) :
    ∀ stack : List String, (∀ n ∈ names, plainName n) →
      names.foldl (cleanStep r) stack = stack ++ names := by
  induction names with
  | nil => intro stack _; simp
  | cons n rest ih =>
    intro stack h
    simp only [List.foldl]
    rw [cleanStep_plain r stack n (h n (by simp)), ih _ (fun x hx => h x (by simp [hx]))]
    simp

theorem plainName_cache : plainName "cache" := by decide

theorem plainName_plugins : plainName "plugins" := by decide

theorem joinSlash_cons_cons (a b : String) (rest : List String) :
    joinSlash (a :: b :: rest) = String.mk (a.data ++ '/' :: (joinSlash (b :: rest)).data) := by
  simp [joinSlash, List.intercalate, List.intersperse]

theorem Join_cache_Rel (rel : Path) (h : ∀ n ∈ rel, plainName n) :
    Join [ "cache", Rel rel ] = joinSlash ("cache" :: rel) := by
  cases rel with
  | nil => decide
  | cons a rest =>
    have hplain : ∀ n ∈ "cache" :: a :: rest, plainName n := by
      intro n hn
      rcases List.mem_cons.1 hn with h1 | h1
      · rw [h1]; exact plainName_cache
      · exact h n h1
    have hslash : ∀ n ∈ "cache" :: a :: rest, '/' ∉ n.data := fun n hn => (hplain n hn).2.2.2
    have hrel : Rel (a :: rest) = joinSlash (a :: rest) := by simp [Rel]
    have hne : joinSlash (a :: rest) ≠ "" := by
      intro hh
      have ha := (h a (by simp)).1
      have : (joinSlash (a :: rest)).data = [] := by rw [hh]
      cases rest with
      | nil =>
        simp [joinSlash, List.intercalate, List.intersperse] at this
        exact ha (String.ext this)
      | cons b r =>
        rw [joinSlash_cons_cons] at this
        simp at this
    have hj : joinSlash [ "cache", joinSlash (a :: rest) ] = joinSlash ("cache" :: a :: rest) := by
      simp [joinSlash, List.intercalate, List.intersperse]
    have hfilter : ([ "cache", joinSlash (a :: rest) ].filter fun e => e ≠ "") =
        [ "cache", joinSlash (a :: rest) ] := by
      simp [List.filter, hne]
    unfold Join
    simp only [hrel, hfilter]
    rw [if_neg (by simp), hj]
    unfold Clean
    have hroot : ((joinSlash ("cache" :: a :: rest)).data.head? = some '/') = False := by
      rw [joinSlash_cons_cons]
      simp
    simp only [hroot, decide_False, Bool.false_eq_true, if_false]
    rw [components_joinSlash _ (by simp) hslash, foldl_cleanStep_plain false _ [] hplain]
    simp

theorem joinUnder_cache (claudeDir rel : Path) (h : ∀ n ∈ rel, plainName n) :
    joinUnder claudeDir [ "plugins", joinSlash ("cache" :: rel) ] =
      claudeDir ++ "plugins" :: "cache" :: rel := by
  have hplain : ∀ n ∈ "cache" :: rel, plainName n := by
    intro n hn
    rcases List.mem_cons.1 hn with h1 | h1
    · rw [h1]; exact plainName_cache
    · exact h n h1
  have hc : components "plugins" = [ "plugins" ] := by decide
  unfold joinUnder
  simp only [List.flatMap, List.map]
  rw [hc, components_joinSlash _ (by simp) (fun n hn => (hplain n hn).2.2.2)]
  have hflat : [[ "plugins" ], "cache" :: rel].flatten = "plugins" :: "cache" :: rel := by
    simp
  rw [hflat]
  have hall : ∀ n ∈ "plugins" :: "cache" :: rel, plainName n := by
    intro n hn
    rcases List.mem_cons.1 hn with h1 | h1
    · rw [h1]; exact plainName_plugins
    · exact hplain n h1
  rw [foldl_cleanStep_plain true _ _ hall]

end Filepath

/-! ## Restoring what a walk wrote -/

namespace Cache
open Filepath

theorem target_snoc (claudeDir rel : Path) (k : String) :
    target claudeDir (rel ++ [k]) = target claudeDir rel ++ [k] := by
  simp [target]

theorem target_ne_nil (claudeDir rel : Path) : target claudeDir rel ≠ [] := by
  simp [target]

theorem walkFn_name (rel : Path) (info : Node) (h : ∀ n ∈ rel, plainName n) (claudeDir : Path) :
    joinUnder claudeDir [ "plugins", (walkFn rel info).header.Name ] = target claudeDir rel := by
  simp only [walkFn, Tar.FileInfoHeader]
  rw [Join_cache_Rel rel h, joinUnder_cache claudeDir rel h]
  rfl

/-- Restoring the record of a directory that is not there yet, below a parent
that is. -/
theorem restoreEntry_dir (claudeDir rel : Path) (root : Node) (m : Nat)
    (kids : List (String × Node)) (h : ∀ n ∈ rel, plainName n)
    (hpar : ∃ m', attrAt root (target claudeDir rel).dropLast = some (.dir m'))
    (hnone : attrAt root (target claudeDir rel) = none) :
    ∃ root', restoreEntry claudeDir root (walkFn rel (.dir m kids)) = ⟨root', none⟩ ∧
      ∀ q, attrAt root' q =
        if q = target claudeDir rel then some (.dir 0o755) else attrAt root q := by
  obtain ⟨root', hr, hq⟩ := mkdirAll_new root (target claudeDir rel) 0o755
    (target_ne_nil _ _) hpar hnone
  refine ⟨root', ?_, hq⟩
  unfold restoreEntry
  simp only [walkFn_name rel _ h claudeDir]
  have ht : (walkFn rel (.dir m kids)).header.Typeflag = Tar.TypeDir := by
    simp [walkFn, Tar.FileInfoHeader, Node.IsDir]
  rw [if_pos ht, hr]

/-- Restoring the record of a file that is not there yet, below a parent that
is. -/
theorem restoreEntry_file (claudeDir rel : Path) (root : Node) (m : Nat) (d : Bytes)
    (h : ∀ n ∈ rel, plainName n)
    (hpar : ∃ m', attrAt root (target claudeDir rel).dropLast = some (.dir m'))
    (hnone : attrAt root (target claudeDir rel) = none) :
    ∃ root', restoreEntry claudeDir root (walkFn rel (.file m d)) = ⟨root', none⟩ ∧
      ∀ q, attrAt root' q =
        if q = target claudeDir rel then some (.file 0o666 d) else attrAt root q := by
  obtain ⟨root1, hr1, hq1⟩ := mkdirAll_old root (target claudeDir rel).dropLast 0o755 hpar
  obtain ⟨root2, hr2⟩ := create_ok (target claudeDir rel) root1 (target_ne_nil _ _)
    (by obtain ⟨m', hm'⟩ := hpar; exact ⟨m', by rw [hq1]; exact hm'⟩)
    (by intro m'; rw [hq1, hnone]; simp)
  obtain ⟨⟨m2, hm2, _, hm2'⟩, hq2⟩ := attrAt_create _ root1 root2 hr2
  have hm2e : m2 = 0o666 := hm2' (by rw [hq1]; exact hnone)
  subst hm2e
  refine ⟨write root2 (target claudeDir rel) d, ?_, ?_⟩
  · unfold restoreEntry
    simp only [walkFn_name rel _ h claudeDir]
    have ht : ¬ (walkFn rel (.file m d)).header.Typeflag = Tar.TypeDir := by
      simp [walkFn, Tar.FileInfoHeader, Node.IsDir, Tar.TypeReg, Tar.TypeDir]
    rw [if_neg ht]
    simp only [Dir, hr1, hr2]
    rfl
  · intro q
    rw [attrAt_write]
    by_cases hq : q = target claudeDir rel
    · subst hq
      simp [hm2]
    · rw [if_neg hq, if_neg hq, hq2 q hq, hq1]

theorem restoreLoop_append (claudeDir : Path) (es1 es2 : List Tar.Entry) (ending : Tar.Ending) :
    ∀ (root root1 : Node), restoreLoop claudeDir root es1 .eof = ⟨root1, none⟩ →
      restoreLoop claudeDir root (es1 ++ es2) ending = restoreLoop claudeDir root1 es2 ending := by
  induction es1 with
  | nil =>
    intro root root1 h
    simp [restoreLoop] at h
    subst h
    rfl
  | cons e rest ih =>
    intro root root1 h
    simp only [List.cons_append, restoreLoop] at h ⊢
    cases hre : restoreEntry claudeDir root e with
    | mk r err =>
      cases err with
      | some e' => simp [hre] at h
      | none =>
        simp only [hre] at h ⊢
        exact ih r root1 h

theorem walk_file (m : Nat) (d : Bytes) (rel : Path) :
    walk (.file m d) rel = [walkFn rel (.file m d)] := by
  simp [walk]

theorem walk_dir (m : Nat) (kids : List (String × Node)) (rel : Path) :
    walk (.dir m kids) rel = walkFn rel (.dir m kids) :: walk.walkKids kids rel := by
  simp [walk]

theorem walkKids_cons (k : String) (n : Node) (rest : List (String × Node)) (rel : Path) :
    walk.walkKids ((k, n) :: rest) rel = walk n (rel ++ [k]) ++ walk.walkKids rest rel := by
  simp [walk.walkKids]

theorem restoreLoop_single (claudeDir : Path) (root root' : Node) (e : Tar.Entry)
    (h : restoreEntry claudeDir root e = ⟨root', none⟩) :
    restoreLoop claudeDir root [e] .eof = ⟨root', none⟩ := by
  simp [restoreLoop, h]

theorem restoreLoop_cons (claudeDir : Path) (root root' : Node) (e : Tar.Entry)
    (es : List Tar.Entry) (ending : Tar.Ending)
    (h : restoreEntry claudeDir root e = ⟨root', none⟩) :
    restoreLoop claudeDir root (e :: es) ending = restoreLoop claudeDir root' es ending := by
  simp [restoreLoop, h]

theorem not_prefix_snoc_self (p : Path) (k : String) : ¬ (p ++ [k]) <+: p := by
  intro h
  have := h.length_le
  simp at this

mutual

theorem restore_walk (claudeDir : Path) : (t : Node) → (rel : Path) → (root : Node) →
    t.wellFormed → (∀ n ∈ rel, plainName n) →
    (∃ m, attrAt root (target claudeDir rel).dropLast = some (.dir m)) →
    attrAt root (target claudeDir rel) = none →
    ∃ root', restoreLoop claudeDir root (walk t rel) .eof = ⟨root', none⟩ ∧
      (∀ r, attrAt root' (target claudeDir rel ++ r) = (attrAt t r).map restored) ∧
      (∀ q, ¬ target claudeDir rel <+: q → attrAt root' q = attrAt root q)
  | .file m d, rel, root, _, hrel, hpar, hnone => by
    obtain ⟨root', hr, hq⟩ := restoreEntry_file claudeDir rel root m d hrel hpar hnone
    refine ⟨root', ?_, ?_, ?_⟩
    · rw [walk_file]
      exact restoreLoop_single _ _ _ _ hr
    · intro r
      rw [hq]
      cases r with
      | nil => simp [attrAt_nil, Node.attr, restored]
      | cons x r' =>
        have hne : ¬ target claudeDir rel ++ x :: r' = target claudeDir rel := by
          intro hh
          have := congrArg List.length hh
          simp at this
        rw [if_neg hne, attrAt_file_cons]
        simp only [Option.map_none']
        exact attrAt_none_of_prefix root _ _ hnone (List.prefix_append _ _)
    · intro q hq'
      rw [hq]
      have hne : ¬ q = target claudeDir rel := fun hh => hq' (hh ▸ List.prefix_refl _)
      rw [if_neg hne]
  | .dir m kids, rel, root, hwf, hrel, hpar, hnone => by
    obtain ⟨root1, hr1, hq1⟩ := restoreEntry_dir claudeDir rel root m kids hrel hpar hnone
    have hwfk : Node.wellFormed.wfKids kids := by
      simpa [Node.wellFormed] using hwf
    have hdir1 : ∃ m', attrAt root1 (target claudeDir rel) = some (.dir m') :=
      ⟨0o755, by rw [hq1]; simp⟩
    have hempty : ∀ k, getKid kids k ≠ none →
        attrAt root1 (target claudeDir rel ++ [k]) = none := by
      intro k _
      rw [hq1]
      have hne : ¬ target claudeDir rel ++ [k] = target claudeDir rel := by
        intro hh
        have := congrArg List.length hh
        simp at this
      rw [if_neg hne]
      exact attrAt_none_of_prefix root _ _ hnone (List.prefix_append _ _)
    obtain ⟨root', hr', hA, hB⟩ := restore_walkKids claudeDir kids rel root1 hwfk hrel hdir1 hempty
    refine ⟨root', ?_, ?_, ?_⟩
    · rw [walk_dir, restoreLoop_cons _ _ _ _ _ _ hr1]
      exact hr'
    · intro r
      cases r with
      | nil =>
        rw [List.append_nil, hB _ (by
          intro k r hh
          have := congrArg List.length hh
          simp at this), hq1]
        simp [attrAt_nil, Node.attr, restored]
      | cons x r' =>
        rw [attrAt_dir_cons]
        cases hk : getKid kids x with
        | some n => simp only []; exact hA x n r' hk
        | none =>
          simp only [Option.map_none']
          rw [hB _ (by
            intro k r hh
            have h1 := List.append_cancel_left hh
            simp only [List.cons.injEq] at h1
            rw [← h1.1]; exact hk), hq1]
          have hne : ¬ target claudeDir rel ++ x :: r' = target claudeDir rel := by
            intro hh
            have := congrArg List.length hh
            simp at this
          rw [if_neg hne]
          exact attrAt_none_of_prefix root _ _ hnone (List.prefix_append _ _)
    · intro q hq'
      rw [hB q (by
        intro k r hh
        exact absurd (hh ▸ List.prefix_append _ _) hq'), hq1]
      have hne : ¬ q = target claudeDir rel := fun hh => hq' (hh ▸ List.prefix_refl _)
      rw [if_neg hne]

theorem restore_walkKids (claudeDir : Path) : (kids : List (String × Node)) → (rel : Path) →
    (root : Node) → Node.wellFormed.wfKids kids → (∀ n ∈ rel, plainName n) →
    (∃ m, attrAt root (target claudeDir rel) = some (.dir m)) →
    (∀ k, getKid kids k ≠ none → attrAt root (target claudeDir rel ++ [k]) = none) →
    ∃ root', restoreLoop claudeDir root (walk.walkKids kids rel) .eof = ⟨root', none⟩ ∧
      (∀ k n r, getKid kids k = some n →
        attrAt root' (target claudeDir rel ++ k :: r) = (attrAt n r).map restored) ∧
      (∀ q, (∀ k r, q = target claudeDir rel ++ k :: r → getKid kids k = none) →
        attrAt root' q = attrAt root q)
  | [], rel, root, _, _, _, _ => by
    refine ⟨root, by simp [walk.walkKids, restoreLoop], ?_, ?_⟩
    · intro k n r hk
      simp [getKid] at hk
    · intro q _
      rfl
  | (k, n) :: rest, rel, root, hwf, hrel, hdir, hempty => by
    obtain ⟨hk, hrestk, hwfn, hwfrest⟩ : plainName k ∧ getKid rest k = none ∧
        n.wellFormed ∧ Node.wellFormed.wfKids rest := by
      simpa [Node.wellFormed.wfKids] using hwf
    have hrel' : ∀ x ∈ rel ++ [k], plainName x := by
      intro x hx
      rcases List.mem_append.1 hx with h1 | h1
      · exact hrel x h1
      · simp at h1; rw [h1]; exact hk
    have hpar' : ∃ m, attrAt root (target claudeDir (rel ++ [k])).dropLast = some (.dir m) := by
      rw [target_snoc, List.dropLast_concat]
      exact hdir
    have hnone' : attrAt root (target claudeDir (rel ++ [k])) = none := by
      rw [target_snoc]
      exact hempty k (by simp [getKid])
    obtain ⟨root1, hr1, hA1, hB1⟩ :=
      restore_walk claudeDir n (rel ++ [k]) root hwfn hrel' hpar' hnone'
    rw [target_snoc] at hA1 hB1
    have hdir1 : ∃ m, attrAt root1 (target claudeDir rel) = some (.dir m) := by
      rw [hB1 _ (not_prefix_snoc_self _ _)]
      exact hdir
    have hempty1 : ∀ k', getKid rest k' ≠ none →
        attrAt root1 (target claudeDir rel ++ [k']) = none := by
      intro k' hk'
      have hne : k' ≠ k := by
        intro hh; subst hh; exact hk' hrestk
      rw [hB1 _ (by
        intro hh
        have := List.prefix_of_prefix_length_le hh (List.prefix_refl _) (by simp)
        have h2 := List.IsPrefix.eq_of_length this (by simp)
        have h3 := List.append_cancel_left h2
        simp at h3
        exact hne h3.symm)]
      exact hempty k' (by simp [getKid, hne, hk'])
    obtain ⟨root', hr', hA, hB⟩ :=
      restore_walkKids claudeDir rest rel root1 hwfrest hrel hdir1 hempty1
    refine ⟨root', ?_, ?_, ?_⟩
    · rw [walkKids_cons, restoreLoop_append _ _ _ _ _ _ hr1]
      exact hr'
    · intro k0 n0 r h0
      by_cases hk0 : k0 = k
      · subst hk0
        simp [getKid] at h0
        subst h0
        rw [hB _ (by
          intro k' r' hh
          have h1 := List.append_cancel_left hh
          simp only [List.cons.injEq] at h1
          rw [← h1.1]; exact hrestk)]
        have := hA1 r
        simpa using this
      · simp [getKid, hk0] at h0
        exact hA k0 n0 r h0
    · intro q hq
      have hq1 : ∀ k' r', q = target claudeDir rel ++ k' :: r' → getKid rest k' = none := by
        intro k' r' hh
        have := hq k' r' hh
        by_cases hk0 : k' = k
        · subst hk0; exact hrestk
        · simpa [getKid, hk0] using this
      rw [hB q hq1, hB1 q (by
        intro hh
        obtain ⟨t, ht⟩ := hh
        have := hq k t (by rw [← ht]; simp)
        simp [getKid] at this)]

end

mutual

theorem walk_sized : (t : Node) → (rel : Path) → ∀ e ∈ walk t rel, e.sized
  | .file m d, rel => by
    intro e he
    rw [walk_file] at he
    simp at he
    subst he
    simp [Tar.Entry.sized, walkFn, Tar.FileInfoHeader, Node.Size]
  | .dir m kids, rel => by
    intro e he
    rw [walk_dir] at he
    rcases List.mem_cons.1 he with h | h
    · subst h
      simp [Tar.Entry.sized, walkFn, Tar.FileInfoHeader, Node.Size]
    · exact walkKids_sized kids rel e h

theorem walkKids_sized : (kids : List (String × Node)) → (rel : Path) →
    ∀ e ∈ walk.walkKids kids rel, e.sized
  | [], rel => by
    intro e he
    simp [walk.walkKids] at he
  | (k, n) :: rest, rel => by
    intro e he
    rw [walkKids_cons] at he
    rcases List.mem_append.1 he with h | h
    · exact walk_sized n (rel ++ [k]) e h
    · exact walkKids_sized rest rel e h

end

theorem stat_of_attrAt_file (root : Node) (p : Path) (m : Nat) (d : Bytes)
    (h : attrAt root p = some (.file m d)) : stat root p = .ok (.file m d) := by
  unfold attrAt at h
  cases hs : stat root p with
  | error e => simp [hs] at h
  | ok n =>
    cases n with
    | file m' d' => simp [hs, Node.attr] at h; rw [h.1, h.2]
    | dir m' k' => simp [hs, Node.attr] at h

theorem attrAt_of_stat (root : Node) (p : Path) (n : Node)
    (h : stat root p = .ok n) : attrAt root p = some n.attr := by
  simp [attrAt, h]

theorem shape_restored (a : Option Attr) :
    (a.map restored).map Attr.shape = a.map Attr.shape := by
  cases a with
  | none => rfl
  | some a => cases a <;> rfl

end Cache

/-! ## Round trip -/

namespace Cache
open Filepath

/-- What `Backup` leaves when its source is there: the walk of the source as
it is after the output file has been created. -/
theorem Backup_ok (tgz : TarGz) (lstatFails : Path → Bool) (closing : Closing)
    (claudeDir repoPath : Path) (root : Node)
    (h : (Backup tgz lstatFails closing (.ok claudeDir) repoPath root).err = none) :
    ∃ root1 root2 t,
      mkdirAll root (repoPath ++ [ "cache" ]) 0o755 = .ok root1 ∧
      create root1 (repoPath ++ [ "cache", "plugins-cache.tar.gz" ]) = .ok root2 ∧
      stat root2 (claudeDir ++ [ "plugins", "cache" ]) = .ok t ∧
      (Backup tgz lstatFails closing (.ok claudeDir) repoPath root).fs =
        write root2 (repoPath ++ [ "cache", "plugins-cache.tar.gz" ])
          (if closing.clean then tgz.pack (walk t []) else closing.leftover) := by
  unfold Backup at h ⊢
  simp only [List.append_assoc, List.singleton_append] at h ⊢
  by_cases hne : notExist (stat root (claudeDir ++ [ "plugins", "cache" ])) = true
  · simp [hne] at h
  · simp only [hne, Bool.false_eq_true, if_false] at h ⊢
    cases hm : mkdirAll root (repoPath ++ [ "cache" ]) 0o755 with
    | error e => simp [hm] at h
    | ok root1 =>
      simp only [hm] at h ⊢
      split at h
      · simp at h
      rename_i hlist
      simp only [hlist, Bool.false_eq_true, if_false]
      cases hc : create root1 (repoPath ++ [ "cache", "plugins-cache.tar.gz" ]) with
      | error e => simp [hc] at h
      | ok root2 =>
        simp only [hc] at h ⊢
        cases hs : stat root2 (claudeDir ++ [ "plugins", "cache" ]) with
        | error e => simp [hs] at h
        | ok t =>
          exact ⟨root1, root2, t, rfl, hc, hs, by simp [hs]⟩

theorem not_prefix_of_empty_dir (fs : Node) (base p : Path) (m m' : Nat) (d : Bytes)
    (hbase : stat fs base = .ok (.dir m []))
    (hp : attrAt fs p = some (.file m' d)) : ¬ base <+: p := by
  intro hpre
  obtain ⟨r, hr⟩ := hpre
  rw [← hr, attrAt_append base r fs _ hbase] at hp
  cases r with
  | nil => simp [attrAt_nil, Node.attr] at hp
  | cons c r' => simp [attrAt_dir_cons, getKid] at hp

/-- Round trip of `Backup` then `Restore` when the writers of `Backup` have
been closed without error.  A well-formed tree `T` is at
`<claudeDir>/plugins/cache`; `Backup` succeeds, its writers having been closed
without error; `Restore` then runs with the same `claudeDir` on a file system
that holds the container `Backup` wrote and an empty `<claudeDir>/plugins`.
Then `Restore` succeeds, and below `<claudeDir>/plugins/cache` exactly the
relative paths of `T` exist, directories as directories and files as files
with the bytes (hence the size) they have in `T`. -/
theorem backup_restore_roundtrip (tgz : TarGz) (lstatFails : Path → Bool) (closing : Closing)
    (claudeDir repoPath : Path) (fs1 fs2 T : Node) (m2 : Nat)
    (hT : stat fs1 (claudeDir ++ [ "plugins", "cache" ]) = .ok T)
    (hwf : T.wellFormed)
    (hclose : closing.clean = true)
    (hbackup : (Backup tgz lstatFails closing (.ok claudeDir) repoPath fs1).err = none)
    (hcontainer : stat fs2 (repoPath ++ [ "cache", "plugins-cache.tar.gz" ]) =
      stat (Backup tgz lstatFails closing (.ok claudeDir) repoPath fs1).fs
        (repoPath ++ [ "cache", "plugins-cache.tar.gz" ]))
    (hempty : stat fs2 (claudeDir ++ [ "plugins" ]) = .ok (.dir m2 [])) :
    (Restore tgz (.ok claudeDir) repoPath fs2).err = none ∧
    ∀ rel : Path,
      (attrAt (Restore tgz (.ok claudeDir) repoPath fs2).fs
        (claudeDir ++ [ "plugins", "cache" ] ++ rel)).map Attr.shape =
      (attrAt T rel).map Attr.shape := by
  obtain ⟨root1, root2, t, hmk, hcr, hst, hfs⟩ :=
    Backup_ok tgz lstatFails closing claudeDir repoPath fs1 hbackup
  -- the container file after `Backup`
  obtain ⟨⟨mc, hmc, _, _⟩, _⟩ := attrAt_create _ root1 root2 hcr
  have hfile : attrAt (Backup tgz lstatFails closing (.ok claudeDir) repoPath fs1).fs
      (repoPath ++ [ "cache", "plugins-cache.tar.gz" ]) =
      some (.file mc (tgz.pack (walk t []))) := by
    rw [hfs, attrAt_write, if_pos rfl, hmc, if_pos hclose]
  have hfile2 : attrAt fs2 (repoPath ++ [ "cache", "plugins-cache.tar.gz" ]) =
      some (.file mc (tgz.pack (walk t []))) := by
    rw [← hfile]; simp only [attrAt, hcontainer]
  have hstat2 := stat_of_attrAt_file _ _ _ _ hfile2
  -- the container lies outside the plugin directory
  have hout : ¬ (claudeDir ++ [ "plugins" ]) <+: (repoPath ++ [ "cache", "plugins-cache.tar.gz" ]) :=
    not_prefix_of_empty_dir fs2 _ _ _ _ _ hempty hfile2
  have hout1 : ¬ (claudeDir ++ [ "plugins", "cache" ]) <+:
      (repoPath ++ [ "cache", "plugins-cache.tar.gz" ]) := by
    intro hh
    apply hout
    refine List.IsPrefix.trans ?_ hh
    exact ⟨[ "cache" ], by simp⟩
  have hout2 : ¬ (claudeDir ++ [ "plugins", "cache" ]) <+: (repoPath ++ [ "cache" ]) := by
    intro hh
    apply hout1
    refine List.IsPrefix.trans hh ?_
    exact ⟨[ "plugins-cache.tar.gz" ], by simp⟩
  -- so the walk sees `T`
  have hT1 := stat_mkdirAll_frame _ fs1 root1 _ _ T hmk hT hout2
  have hT2 := stat_create_frame _ root1 root2 _ T hcr hT1 hout1
  have htT : t = T := by
    rw [hT2] at hst
    exact (Except.ok.inj hst).symm
  subst htT
  -- `Restore` reads the records back
  have hunpack := tgz.unpack_pack (walk t []) (walk_sized t [])
  have hparent : ∃ m, attrAt fs2 (target claudeDir []).dropLast = some (.dir m) := by
    refine ⟨m2, ?_⟩
    have : (target claudeDir []).dropLast = claudeDir ++ [ "plugins" ] := by
      have : target claudeDir [] = (claudeDir ++ [ "plugins" ]) ++ [ "cache" ] := by
        simp [target]
      rw [this, List.dropLast_concat]
    rw [this, attrAt_of_stat _ _ _ hempty]
    rfl
  have hnone : attrAt fs2 (target claudeDir []) = none := by
    have : target claudeDir [] = (claudeDir ++ [ "plugins" ]) ++ [ "cache" ] := by
      simp [target]
    rw [this, attrAt_append _ _ fs2 _ hempty]
    simp [attrAt_dir_cons, getKid]
  obtain ⟨root', hr', hA, _⟩ :=
    restore_walk claudeDir t [] fs2 hwf (by simp) hparent hnone
  have hrestore : Restore tgz (.ok claudeDir) repoPath fs2 = ⟨root', none⟩ := by
    unfold Restore
    simp only [hstat2, notExist, hunpack]
    simpa using hr'
  rw [hrestore]
  refine ⟨rfl, ?_⟩
  intro rel
  have := hA rel
  simp only [target, List.append_nil] at this
  simp only []
  rw [this, shape_restored]

theorem sampleCache_wellFormed : sampleCache.wellFormed := by
  simp [sampleCache, Node.wellFormed, Node.wellFormed.wfKids, getKid]
  decide

/-- The round trip on the sample machine: the sample cache is backed up, then
restored onto an empty plugin directory. -/
theorem backup_restore_roundtrip_witness :
    stat sampleBefore [ "home", ".claude", "plugins", "cache" ] = .ok sampleCache ∧
    (Backup sampleTarGz lstatWorks cleanClosing (.ok [ "home", ".claude" ]) [ "home", "repo" ]
      sampleBefore).err = none ∧
    stat sampleAfter [ "home", ".claude", "plugins" ] = .ok (.dir 0o755 []) ∧
    (Restore sampleTarGz (.ok [ "home", ".claude" ]) [ "home", "repo" ] sampleAfter).err = none ∧
    ∀ rel : Path,
      (attrAt (Restore sampleTarGz (.ok [ "home", ".claude" ]) [ "home", "repo" ] sampleAfter).fs
        ([ "home", ".claude" ] ++ [ "plugins", "cache" ] ++ rel)).map Attr.shape =
      (attrAt sampleCache rel).map Attr.shape :=
  ⟨rfl, rfl, rfl,
    backup_restore_roundtrip sampleTarGz lstatWorks cleanClosing [ "home", ".claude" ] [ "home", "repo" ]
      sampleBefore sampleAfter sampleCache 0o755 rfl sampleCache_wellFormed rfl rfl rfl rfl⟩

/-- C1.  The round trip fails where `Backup` returns no error although a
writer failed to close (the defect of C7).  On the sample machine the gzip
writer fails to close: `Backup` returns no error and leaves an output file
with the gzip header alone.  `Restore`, run with the same `claudeDir` on a
machine that holds this file and an empty `<claudeDir>/plugins`, returns an
error, and `<claudeDir>/plugins/cache` is not there afterwards. -/
theorem backup_restore_after_failed_close :
    stat sampleBefore [ "home", ".claude", "plugins", "cache" ] = .ok sampleCache ∧
    (Backup sampleTarGz lstatWorks failingClosing (.ok [ "home", ".claude" ]) [ "home", "repo" ]
      sampleBefore).err = none ∧
    stat (Backup sampleTarGz lstatWorks failingClosing (.ok [ "home", ".claude" ]) [ "home", "repo" ]
      sampleBefore).fs [ "home", "repo", "cache", "plugins-cache.tar.gz" ] =
      .ok (.file 0o666 gzipHeaderBytes) ∧
    stat sampleBroken [ "home", "repo", "cache", "plugins-cache.tar.gz" ] =
      stat (Backup sampleTarGz lstatWorks failingClosing (.ok [ "home", ".claude" ]) [ "home", "repo" ]
        sampleBefore).fs [ "home", "repo", "cache", "plugins-cache.tar.gz" ] ∧
    stat sampleBroken [ "home", ".claude", "plugins" ] = .ok (.dir 0o755 []) ∧
    (Restore sampleTarGz (.ok [ "home", ".claude" ]) [ "home", "repo" ] sampleBroken).err ≠
      none ∧
    attrAt (Restore sampleTarGz (.ok [ "home", ".claude" ]) [ "home", "repo" ] sampleBroken).fs
      [ "home", ".claude", "plugins", "cache" ] = none := by
  refine ⟨rfl, rfl, rfl, rfl, rfl, by decide, by decide⟩

end Cache

/-! ## Missing source, missing container -/

namespace Cache
open Filepath

/-- Missing source or container where `os.Stat` says so, the assistant home
directory being resolved.  When `os.Stat` reports that `<claudeDir>/plugins/cache` does not
exist, `Backup` returns `os.ErrNotExist` and leaves the file system as it was:
neither the cache directory nor the container is created.  When it reports
that `<repoPath>/cache/plugins-cache.tar.gz` does not exist, `Restore` returns
`os.ErrNotExist` and leaves the file system as it was. -/
theorem missing_source_or_container (tgz : TarGz) (lstatFails : Path → Bool) (closing : Closing)
    (claudeDir repoPath : Path) (root : Node) :
    (stat root (claudeDir ++ [ "plugins", "cache" ]) = .error .ENOENT →
      (Backup tgz lstatFails closing (.ok claudeDir) repoPath root).err = some .ErrNotExist ∧
      (Backup tgz lstatFails closing (.ok claudeDir) repoPath root).fs = root) ∧
    (stat root (repoPath ++ [ "cache", "plugins-cache.tar.gz" ]) = .error .ENOENT →
      (Restore tgz (.ok claudeDir) repoPath root).err = some .ErrNotExist ∧
      (Restore tgz (.ok claudeDir) repoPath root).fs = root) := by
  constructor
  · intro h
    simp [Backup, h, notExist, IsNotExist]
  · intro h
    simp [Restore, h, notExist, IsNotExist]

/-- The sample machines with no plugin cache for `Backup` and no container for
`Restore`. -/
theorem missing_source_or_container_witness :
    stat sampleAfter [ "home", ".claude", "plugins", "cache" ] = .error .ENOENT ∧
    (Backup sampleTarGz lstatWorks cleanClosing (.ok [ "home", ".claude" ]) [ "home", "repo" ]
      sampleAfter).err = some .ErrNotExist ∧
    (Backup sampleTarGz lstatWorks cleanClosing (.ok [ "home", ".claude" ]) [ "home", "repo" ]
      sampleAfter).fs = sampleAfter ∧
    stat sampleBefore [ "home", "repo", "cache", "plugins-cache.tar.gz" ] = .error .ENOENT ∧
    (Restore sampleTarGz (.ok [ "home", ".claude" ]) [ "home", "repo" ]
      sampleBefore).err = some .ErrNotExist ∧
    (Restore sampleTarGz (.ok [ "home", ".claude" ]) [ "home", "repo" ]
      sampleBefore).fs = sampleBefore :=
  have h := missing_source_or_container sampleTarGz lstatWorks cleanClosing [ "home", ".claude" ]
    [ "home", "repo" ]
  ⟨rfl, ((h sampleAfter).1 rfl).1, ((h sampleAfter).1 rfl).2, rfl,
    ((h sampleBefore).2 rfl).1, ((h sampleBefore).2 rfl).2⟩

/-- C2.  A path that does not exist because a regular file stands on the way
passes the guards, which test `os.IsNotExist` alone.  With
`/home/.claude/plugins` a regular file, `<claudeDir>/plugins/cache` does not
exist, `os.Stat` fails with `ENOTDIR`, and `Backup` makes `<repoPath>/cache`
and the container before it returns `ENOTDIR`, not `os.ErrNotExist`.  With
`/home/repo/cache` a regular file, the container does not exist, and `Restore`
stops on the nil `info` of the discarded `os.Stat` error instead of returning
`os.ErrNotExist`. -/
theorem missing_path_behind_a_file :
    attrAt sampleBlockedSource [ "home", ".claude", "plugins", "cache" ] = none ∧
    stat sampleBlockedSource [ "home", ".claude", "plugins", "cache" ] = .error .ENOTDIR ∧
    (Backup sampleTarGz lstatWorks cleanClosing (.ok [ "home", ".claude" ]) [ "home", "repo" ]
      sampleBlockedSource).err = some .ENOTDIR ∧
    attrAt sampleBlockedSource [ "home", "repo", "cache" ] = none ∧
    attrAt (Backup sampleTarGz lstatWorks cleanClosing (.ok [ "home", ".claude" ]) [ "home", "repo" ]
      sampleBlockedSource).fs [ "home", "repo", "cache" ] = some (.dir 0o755) ∧
    attrAt (Backup sampleTarGz lstatWorks cleanClosing (.ok [ "home", ".claude" ]) [ "home", "repo" ]
      sampleBlockedSource).fs [ "home", "repo", "cache", "plugins-cache.tar.gz" ] =
      some (.file 0o666 (sampleTarGz.pack [])) ∧
    attrAt sampleBlockedRepo [ "home", "repo", "cache", "plugins-cache.tar.gz" ] = none ∧
    stat sampleBlockedRepo [ "home", "repo", "cache", "plugins-cache.tar.gz" ] =
      .error .ENOTDIR ∧
    (Restore sampleTarGz (.ok [ "home", ".claude" ]) [ "home", "repo" ]
      sampleBlockedRepo).err = some (.other "nil dereference") := by
  refine ⟨rfl, rfl, rfl, rfl, rfl, rfl, rfl, rfl, rfl⟩

end Cache

/-! ## Close errors; directory modes -/

namespace Cache
open Filepath

/-- C7.  The error `Backup` returns is the one of the walk, whatever closing
the tar writer, the gzip writer and the output file return; on the sample
machine, with a gzip writer that fails to close and an output file left with
the gzip header alone, `Backup` returns no error. -/
theorem backup_close_error_swallowed :
    (∀ (tgz : TarGz) (lstatFails : Path → Bool) (closing : Closing)
        (getClaudeDir : Except Err Path)
        (repoPath : Path) (root : Node),
      (Backup tgz lstatFails closing getClaudeDir repoPath root).err =
        (Backup tgz lstatFails cleanClosing getClaudeDir repoPath root).err) ∧
    failingClosing.gzipClose ≠ none ∧
    (Backup sampleTarGz lstatWorks failingClosing (.ok [ "home", ".claude" ]) [ "home", "repo" ]
      sampleBefore).err = none ∧
    attrAt (Backup sampleTarGz lstatWorks failingClosing (.ok [ "home", ".claude" ]) [ "home", "repo" ]
      sampleBefore).fs [ "home", "repo", "cache", "plugins-cache.tar.gz" ] =
      some (.file 0o666 gzipHeaderBytes) := by
  refine ⟨?_, by decide, rfl, rfl⟩
  intro tgz lstatFails closing getClaudeDir repoPath root
  unfold Backup
  cases getClaudeDir with
  | error e => rfl
  | ok claudeDir =>
    simp only []
    split
    · rfl
    · split
      · rfl
      · split
        · rfl
        · split
          · rfl
          · rfl

/-- C8, as the claim states it, fails: restoring the record of the directory
`cache/d`, whose header states mode 0700, makes `plugins/cache/d` with mode
0755. -/
theorem restore_dir_mode_counterexample :
    sampleDirEntry.header.Typeflag = Tar.TypeDir ∧
    sampleDirEntry.header.Mode = 0o700 ∧
    (restoreEntry [ "home", ".claude" ] sampleEmpty sampleDirEntry).err = none ∧
    attrAt (restoreEntry [ "home", ".claude" ] sampleEmpty sampleDirEntry).fs
      [ "home", ".claude", "plugins", "cache", "d" ] = some (.dir 0o755) ∧
    attrAt (restoreEntry [ "home", ".claude" ] sampleEmpty sampleDirEntry).fs
      [ "home", ".claude", "plugins", "cache", "d" ] ≠ some (.dir sampleDirEntry.header.Mode) := by
  decide

/-- C8, amended.  For a Directory header that `Restore` acts on without error,
every directory it has to make, the one of the entry as well as each missing
ancestor, gets the fixed mode 0755; what was there before keeps its kind, mode
and content; the mode the header states plays no part. -/
theorem restore_dir_mode (claudeDir : Path) (root root' : Node) (e : Tar.Entry)
    (hdir : e.header.Typeflag = Tar.TypeDir)
    (hok : restoreEntry claudeDir root e = ⟨root', none⟩) :
    (∀ q : Path, attrAt root' q =
      if attrAt root q = none ∧ q <+: joinUnder claudeDir [ "plugins", e.header.Name ]
      then some (.dir 0o755) else attrAt root q) ∧
    ∀ mode : Nat,
      restoreEntry claudeDir root { e with header := { e.header with Mode := mode } } =
        ⟨root', none⟩ := by
  unfold restoreEntry at hok
  simp only [hdir, if_true] at hok
  cases hm : mkdirAll root (joinUnder claudeDir [ "plugins", e.header.Name ]) 0o755 with
  | error err => simp [hm] at hok
  | ok r =>
    simp only [hm, Outcome.mk.injEq, and_true] at hok
    subst hok
    refine ⟨attrAt_mkdirAll _ root r 0o755 hm, ?_⟩
    intro mode
    unfold restoreEntry
    simp only [hdir, if_true, hm]

/-- C8, amended, on the record of `cache/d`. -/
theorem restore_dir_mode_witness :
    sampleDirEntry.header.Typeflag = Tar.TypeDir ∧
    ∀ q : Path,
      attrAt (restoreEntry [ "home", ".claude" ] sampleEmpty sampleDirEntry).fs q =
      if attrAt sampleEmpty q = none ∧
        q <+: joinUnder [ "home", ".claude" ] [ "plugins", sampleDirEntry.header.Name ]
      then some (.dir 0o755) else attrAt sampleEmpty q :=
  ⟨rfl, (restore_dir_mode [ "home", ".claude" ] sampleEmpty
    (restoreEntry [ "home", ".claude" ] sampleEmpty sampleDirEntry).fs sampleDirEntry rfl rfl).1⟩

end Cache

/-! ## Containers that stop early -/

namespace Cache
open Filepath

theorem restoreCut_err (claudeDir : Path) (root : Node) (h : Tar.Header) (got : Bytes) :
    (restoreCut claudeDir root h got).err ≠ none := by
  unfold restoreCut
  simp only []
  split
  · split <;> simp
  · split
    · simp
    · split <;> simp

theorem restoreLoop_cut_err (claudeDir : Path) (h : Tar.Header) (got : Bytes)
    (pre : List Tar.Entry) : ∀ root : Node,
    (restoreLoop claudeDir root pre (.cut h got)).err ≠ none := by
  induction pre with
  | nil =>
    intro root
    simp only [restoreLoop]
    exact restoreCut_err claudeDir root h got
  | cons e rest ih =>
    intro root
    simp only [restoreLoop]
    cases hre : restoreEntry claudeDir root e with
    | mk r err =>
      cases err with
      | some e' => simp
      | none => exact ih r

/-- C9, as the claim states it, fails: a container cut in the payload of its
first record, the file `cache/a.txt` of which one byte out of three came
through, makes `Restore` return an error, and the file of the cut record is
there, holding that byte. -/
theorem restore_truncated_counterexample :
    (restoreLoop [ "home", ".claude" ] sampleEmpty [] (.cut sampleFileHeader [1])).err =
      some .ErrUnexpectedEOF ∧
    attrAt sampleEmpty [ "home", ".claude", "plugins", "cache", "a.txt" ] = none ∧
    attrAt (restoreLoop [ "home", ".claude" ] sampleEmpty [] (.cut sampleFileHeader [1])).fs
      [ "home", ".claude", "plugins", "cache", "a.txt" ] = some (.file 0o666 [1]) := by
  decide

/-- C9, amended.  The stream of a container cut in the payload of a record
gives the records `pre` read in full, the header `h` and the bytes `got` of
the payload that came through.  `Restore` returns an error.  When every record
of `pre` is restored without error, the outcome is the one of the pass over
the cut record on what restoring `pre` gives.  For a file header whose target
can be created, the error is `io.ErrUnexpectedEOF`, the target is a file that
holds `got`, directories missing above it are made, and every other path is as
restoring `pre` left it.  Nothing that follows the cut record in the container
takes part. -/
theorem restore_truncated (tgz : TarGz) (claudeDir repoPath : Path) (root : Node)
    (mode : Nat) (data : Bytes) (pre : List Tar.Entry) (h : Tar.Header) (got : Bytes)
    (hfile : stat root (repoPath ++ [ "cache", "plugins-cache.tar.gz" ]) = .ok (.file mode data))
    (hcut : tgz.unpack data = .ok ⟨pre, .cut h got⟩) :
    (Restore tgz (.ok claudeDir) repoPath root).err ≠ none ∧
    ∀ root1 : Node, restoreLoop claudeDir root pre .eof = ⟨root1, none⟩ →
      Restore tgz (.ok claudeDir) repoPath root = restoreCut claudeDir root1 h got ∧
      ∀ root2 : Node, h.Typeflag ≠ Tar.TypeDir →
        mkdirAll root1 (Dir (joinUnder claudeDir [ "plugins", h.Name ])) 0o755 = .ok root2 →
        (∀ m, attrAt root2 (joinUnder claudeDir [ "plugins", h.Name ]) ≠ some (.dir m)) →
        joinUnder claudeDir [ "plugins", h.Name ] ≠ [] →
        (Restore tgz (.ok claudeDir) repoPath root).err = some .ErrUnexpectedEOF ∧
        (∃ m, attrAt (Restore tgz (.ok claudeDir) repoPath root).fs
          (joinUnder claudeDir [ "plugins", h.Name ]) = some (.file m got)) ∧
        ∀ q : Path, q ≠ joinUnder claudeDir [ "plugins", h.Name ] →
          attrAt (Restore tgz (.ok claudeDir) repoPath root).fs q =
            if attrAt root1 q = none ∧ q <+: Dir (joinUnder claudeDir [ "plugins", h.Name ])
            then some (.dir 0o755) else attrAt root1 q := by
  have hR : Restore tgz (.ok claudeDir) repoPath root =
      restoreLoop claudeDir root pre (.cut h got) := by
    unfold Restore
    simp only [hfile, notExist, hcut, Bool.false_eq_true, if_false]
  refine ⟨by rw [hR]; exact restoreLoop_cut_err claudeDir h got pre root, ?_⟩
  intro root1 hpre
  have hR1 : Restore tgz (.ok claudeDir) repoPath root = restoreCut claudeDir root1 h got := by
    have := restoreLoop_append claudeDir pre [] (.cut h got) root root1 hpre
    rw [List.append_nil] at this
    rw [hR, this]
    simp only [restoreLoop]
  refine ⟨hR1, ?_⟩
  intro root2 htype hmk hcreate hne
  have hpar : ∃ m, attrAt root2 (joinUnder claudeDir [ "plugins", h.Name ]).dropLast =
      some (.dir m) := mkdirAll_post _ root1 root2 0o755 hmk
  obtain ⟨root3, hr3⟩ := create_ok _ root2 hne hpar hcreate
  obtain ⟨⟨m3, hm3, _, _⟩, hq3⟩ := attrAt_create _ root2 root3 hr3
  have hres : restoreCut claudeDir root1 h got =
      ⟨write root3 (joinUnder claudeDir [ "plugins", h.Name ]) got, some .ErrUnexpectedEOF⟩ := by
    simp only [restoreCut, htype, if_false, hmk, hr3]
  rw [hR1, hres]
  refine ⟨rfl, ⟨m3, ?_⟩, ?_⟩
  · simp only []
    rw [attrAt_write, if_pos rfl, hm3]
  · intro q hq
    simp only []
    rw [attrAt_write, if_neg hq, hq3 q hq]
    exact attrAt_mkdirAll _ root1 root2 0o755 hmk q

theorem sampleTarGz_pack (es : List Tar.Entry) :
    sampleTarGz.pack es = [Encodable.encode (es.map Tar.Entry.toCode)] := rfl

theorem sampleTarGz_unpack_two (n k : Nat) :
    sampleTarGz.unpack [n, k] =
    match (Encodable.decode n : Option (List (List Nat × Nat × Nat × Nat × List Nat))) with
      | some cs =>
        match (cs.map Tar.Entry.ofCode).reverse with
        | last :: before => .ok ⟨before.reverse, .cut last.header (last.payload.take k)⟩
        | [] => .error (.other "gzip: invalid header")
      | none => .error (.other "gzip: invalid header") := rfl

theorem ofCode_toCode (e : Tar.Entry) : Tar.Entry.ofCode e.toCode = e := by
  have hchar : (Char.ofNat ∘ Char.toNat) = id := by
    funext c; simp
  obtain ⟨⟨name, tf, mode, size⟩, payload⟩ := e
  simp only [Tar.Entry.ofCode, Tar.Entry.toCode, List.map_map]
  rw [hchar, List.map_id]
  simp

/-- What the sample format reads from a container cut `k` bytes into the
payload of its last record. -/
theorem sampleTarGz_unpack_cut (es : List Tar.Entry) (k : Nat) :
    sampleTarGz.unpack (sampleTarGz.pack es ++ [k]) =
      match es.reverse with
        | last :: before => .ok ⟨before.reverse, .cut last.header (last.payload.take k)⟩
        | [] => .error (.other "gzip: invalid header") := by
  rw [sampleTarGz_pack, List.singleton_append, sampleTarGz_unpack_two, Encodable.encodek]
  simp only [List.map_map]
  have : (Tar.Entry.ofCode ∘ Tar.Entry.toCode) = id := by
    funext e; exact ofCode_toCode e
  rw [this, List.map_id]

theorem sampleCut_unpack :
    sampleTarGz.unpack (sampleTarGz.pack [sampleFileEntry] ++ [1]) =
      .ok ⟨[], .cut sampleFileHeader [1]⟩ := by
  rw [sampleTarGz_unpack_cut]
  rfl

theorem sampleCut_mkdirAll :
    ∃ root2, mkdirAll sampleCut
        (Dir (joinUnder [ "home", ".claude" ] [ "plugins", sampleFileHeader.Name ])) 0o755 =
        .ok root2 ∧
      ∀ m, attrAt root2 (joinUnder [ "home", ".claude" ] [ "plugins", sampleFileHeader.Name ]) ≠
        some (.dir m) := by
  obtain ⟨root2, h2, hq⟩ := mkdirAll_new sampleCut
    (Dir (joinUnder [ "home", ".claude" ] [ "plugins", sampleFileHeader.Name ])) 0o755
    (by decide) ⟨0o755, by decide⟩ (by decide)
  refine ⟨root2, h2, ?_⟩
  intro m
  rw [hq]
  have h : attrAt sampleCut
      (joinUnder [ "home", ".claude" ] [ "plugins", sampleFileHeader.Name ]) = none := by
    decide
  have hp : ¬ joinUnder [ "home", ".claude" ] [ "plugins", sampleFileHeader.Name ] =
      Dir (joinUnder [ "home", ".claude" ] [ "plugins", sampleFileHeader.Name ]) := by
    decide
  simp [h, hp]

/-- C9, amended, on the container of `cache/a.txt` cut after one byte. -/
theorem restore_truncated_witness :
    stat sampleCut [ "home", "repo", "cache", "plugins-cache.tar.gz" ] =
      .ok (.file 0o666 (sampleTarGz.pack [sampleFileEntry] ++ [1])) ∧
    sampleTarGz.unpack (sampleTarGz.pack [sampleFileEntry] ++ [1]) =
      .ok ⟨[], .cut sampleFileHeader [1]⟩ ∧
    (Restore sampleTarGz (.ok [ "home", ".claude" ]) [ "home", "repo" ] sampleCut).err =
      some .ErrUnexpectedEOF ∧
    ∃ m, attrAt (Restore sampleTarGz (.ok [ "home", ".claude" ]) [ "home", "repo" ] sampleCut).fs
      (joinUnder [ "home", ".claude" ] [ "plugins", sampleFileHeader.Name ]) =
      some (.file m [1]) :=
  have h := ((restore_truncated sampleTarGz [ "home", ".claude" ] [ "home", "repo" ] sampleCut
    0o666 (sampleTarGz.pack [sampleFileEntry] ++ [1]) [] sampleFileHeader [1] rfl
    sampleCut_unpack).2 sampleCut rfl).2
  have h2 := sampleCut_mkdirAll
  ⟨rfl, sampleCut_unpack,
    (h h2.choose (by decide) h2.choose_spec.1 h2.choose_spec.2 (by decide)).1,
    (h h2.choose (by decide) h2.choose_spec.1 h2.choose_spec.2 (by decide)).2.1⟩

end Cache

/-! ## Names that climb out -/

namespace Cache
open Filepath

theorem attrAt_bare (m : Nat) (q : Path) (hq : q ≠ []) : attrAt (.dir m []) q = none := by
  cases q with
  | nil => exact absurd rfl hq
  | cons c r => simp [attrAt_dir_cons, getKid]

theorem mkdirAll_bare (m perm : Nat) (p : Path) :
    ∃ root', mkdirAll (.dir m []) p perm = .ok root' := by
  apply mkdirAll_ok
  intro q _ m' d' h
  cases q with
  | nil => simp [attrAt_nil, Node.attr] at h
  | cons c r => simp [attrAt_dir_cons, getKid] at h

/-- `Restore` on a container that is there and that the reader accepts is the
loop over its records. -/
theorem Restore_unpacked (tgz : TarGz) (claudeDir repoPath : Path) (root : Node) (mode : Nat)
    (data : Bytes) (stream : Tar.Stream)
    (hs : stat root (repoPath ++ [ "cache", "plugins-cache.tar.gz" ]) = .ok (.file mode data))
    (hu : tgz.unpack data = .ok stream) :
    Restore tgz (.ok claudeDir) repoPath root =
      restoreLoop claudeDir root stream.entries stream.ending := by
  unfold Restore
  simp only [hs, notExist, hu, Bool.false_eq_true, if_false]

theorem sampleEscape_restore :
    Restore sampleTarGz (.ok [ "home", ".claude" ]) [ "home", "repo" ] sampleEscape =
      restoreLoop [ "home", ".claude" ] sampleEscape [sampleEscapeEntry] .eof :=
  Restore_unpacked sampleTarGz [ "home", ".claude" ] [ "home", "repo" ] sampleEscape 0o666
    (sampleTarGz.pack [sampleEscapeEntry]) ⟨[sampleEscapeEntry], .eof⟩ rfl
    (sampleTarGz.unpack_pack [sampleEscapeEntry] (by
      intro e he
      rw [List.mem_singleton] at he
      subst he
      rfl))

/-- C10.  Path traversal in `Restore`.  The target of a record is the join of
`<claudeDir>/plugins` with the header's name, parent segments included: on the
sample machine the container with the file record `../../x` is restored
without error and makes the file `/home/x`, which was not there and does not
lie below `/home/.claude/plugins`.  No name is refused: on a bare root
directory every file record whose target is not the root itself, and every
directory record, is restored without error. -/
theorem restore_path_traversal :
    sampleEscapeEntry.header.Name = "../../x" ∧
    joinUnder [ "home", ".claude" ] [ "plugins", sampleEscapeEntry.header.Name ] =
      [ "home", "x" ] ∧
    ¬ ([ "home", ".claude", "plugins" ] <+: [ "home", "x" ]) ∧
    (Restore sampleTarGz (.ok [ "home", ".claude" ]) [ "home", "repo" ] sampleEscape).err = none ∧
    attrAt sampleEscape [ "home", "x" ] = none ∧
    attrAt (Restore sampleTarGz (.ok [ "home", ".claude" ]) [ "home", "repo" ] sampleEscape).fs
      [ "home", "x" ] = some (.file 0o666 [7, 8]) ∧
    (∀ (claudeDir : Path) (e : Tar.Entry) (m : Nat), e.header.Typeflag ≠ Tar.TypeDir →
      joinUnder claudeDir [ "plugins", e.header.Name ] ≠ [] →
      (restoreEntry claudeDir (.dir m []) e).err = none) ∧
    (∀ (claudeDir : Path) (e : Tar.Entry) (m : Nat), e.header.Typeflag = Tar.TypeDir →
      (restoreEntry claudeDir (.dir m []) e).err = none) := by
  refine ⟨rfl, by decide, by decide, ?_, by decide, ?_, ?_, ?_⟩
  · rw [sampleEscape_restore]
    decide
  · rw [sampleEscape_restore]
    decide
  · intro claudeDir e m htype hne
    obtain ⟨root1, hr1⟩ := mkdirAll_bare m 0o755 (Dir (joinUnder claudeDir [ "plugins", e.header.Name ]))
    have hpar := mkdirAll_post _ _ root1 0o755 hr1
    have hnd : ∀ m', attrAt root1 (joinUnder claudeDir [ "plugins", e.header.Name ]) ≠
        some (.dir m') := by
      intro m'
      rw [attrAt_mkdirAll _ _ root1 0o755 hr1]
      have hnp : ¬ joinUnder claudeDir [ "plugins", e.header.Name ] <+:
          Dir (joinUnder claudeDir [ "plugins", e.header.Name ]) := by
        intro hh
        have h1 := hh.length_le
        have h2 : (joinUnder claudeDir [ "plugins", e.header.Name ]).length ≠ 0 := by
          simpa using hne
        simp [Dir] at h1
        omega
      simp [hnp, attrAt_bare m _ hne]
    obtain ⟨root2, hr2⟩ := create_ok _ root1 hne hpar hnd
    unfold restoreEntry
    simp only [htype, if_false, hr1, hr2]
  · intro claudeDir e m htype
    obtain ⟨root1, hr1⟩ := mkdirAll_bare m 0o755 (joinUnder claudeDir [ "plugins", e.header.Name ])
    unfold restoreEntry
    simp only [htype, if_true, hr1]

end Cache

/-! ## Cleaning the artifact directory -/

namespace Cache
open Filepath

theorem attrAt_readDir (root : Node) (dir : Path) (entries : List (String × Node))
    (h : readDir root dir = .ok entries) (name : String) (r : Path) :
    attrAt root (dir ++ name :: r) = (getKid entries name).bind fun k => attrAt k r := by
  unfold readDir at h
  cases hs : stat root dir with
  | error e => simp [hs] at h
  | ok n =>
    cases n with
    | file m d => simp [hs] at h
    | dir m kids =>
      simp only [hs, Except.ok.injEq] at h
      subst h
      rw [attrAt_append dir _ root _ hs, attrAt_dir_cons]
      cases getKid kids name <;> rfl

theorem attrAt_readDir_entry (root : Node) (dir : Path) (entries : List (String × Node))
    (h : readDir root dir = .ok entries) (name : String) :
    attrAt root (dir ++ [name]) = (getKid entries name).map Node.attr := by
  rw [attrAt_readDir root dir entries h name []]
  cases getKid entries name with
  | none => rfl
  | some k => simp [attrAt_nil]

theorem getKid_of_attrAt_file (root : Node) (dir : Path) (entries : List (String × Node))
    (h : readDir root dir = .ok entries) (name : String) (m : Nat) (d : Bytes)
    (hfile : attrAt root (dir ++ [name]) = some (.file m d)) :
    getKid entries name = some (.file m d) := by
  rw [attrAt_readDir_entry root dir entries h name] at hfile
  cases hg : getKid entries name with
  | none => simp [hg] at hfile
  | some k =>
    cases k with
    | dir m' k' => simp [hg, Node.attr] at hfile
    | file m' d' =>
      simp only [hg, Option.map_some', Node.attr, Option.some.injEq, Attr.file.injEq] at hfile
      rw [hfile.1, hfile.2]

theorem getKid_of_mem (entries : List (String × Node)) (name : String) (n : Node)
    (hnd : (entries.map Prod.fst).Nodup) (hmem : (name, n) ∈ entries) :
    getKid entries name = some n := by
  induction entries with
  | nil => simp at hmem
  | cons kv rest ih =>
    obtain ⟨k, v⟩ := kv
    simp only [List.map_cons, List.nodup_cons] at hnd
    rcases List.mem_cons.1 hmem with h | h
    · simp only [Prod.mk.injEq] at h
      simp [getKid, h.1, h.2]
    · have hne : name ≠ k := by
        intro hh
        apply hnd.1
        rw [← hh]
        exact List.mem_map.2 ⟨(name, n), h, rfl⟩
      simp [getKid, hne, ih hnd.2 h]

theorem mem_of_getKid (entries : List (String × Node)) (name : String) (n : Node)
    (h : getKid entries name = some n) : (name, n) ∈ entries := by
  induction entries with
  | nil => simp [getKid] at h
  | cons kv rest ih =>
    obtain ⟨k, v⟩ := kv
    by_cases hk : name = k
    · simp [getKid, hk] at h
      simp [hk, h]
    · simp [getKid, hk] at h
      exact List.mem_cons_of_mem _ (ih h)

theorem snoc_prefix_snoc (dir : Path) (a b : String) (h : (dir ++ [a]) <+: (dir ++ [b])) :
    a = b := by
  have h2 := List.IsPrefix.eq_of_length h (by simp)
  have h3 := List.append_cancel_left h2
  simpa using h3

/-- The deleting loop of `Clean`, path by path. -/
theorem attrAt_foldl_deleteEntry (locked : Path → Bool) (dir : Path)
    (entries : List (String × Node)) : ∀ fs : Node,
    (entries.map Prod.fst).Nodup →
    (∀ e ∈ entries, attrAt fs (dir ++ [e.1]) = some e.2.attr) →
    ∀ q, attrAt (entries.foldl (deleteEntry locked dir) fs) q =
      if deleted locked dir entries q then none else attrAt fs q := by
  induction entries with
  | nil => intro fs _ _ q; simp [deleted]
  | cons kv rest ih =>
    obtain ⟨name, node⟩ := kv
    intro fs hnd hpre q
    simp only [List.map_cons, List.nodup_cons] at hnd
    have hpre_rest : ∀ e ∈ rest, attrAt fs (dir ++ [e.1]) = some e.2.attr :=
      fun e he => hpre e (List.mem_cons_of_mem _ he)
    have hdel : deleted locked dir ((name, node) :: rest) q =
        ((!node.IsDir && !locked (dir ++ [name]) && decide ((dir ++ [name]) <+: q)) ||
          deleted locked dir rest q) := by
      simp [deleted]
    simp only [List.foldl_cons]
    cases node with
    | dir m kids =>
      have hstep : deleteEntry locked dir fs (name, .dir m kids) = fs := by
        simp [deleteEntry, Node.IsDir]
      rw [hstep, ih fs hnd.2 hpre_rest q, hdel]
      simp [Node.IsDir]
    | file m d =>
      have hst : stat fs (dir ++ [name]) = .ok (.file m d) :=
        stat_of_attrAt_file _ _ _ _ (hpre (name, .file m d) (by simp))
      by_cases hl : locked (dir ++ [name]) = true
      · have hstep : deleteEntry locked dir fs (name, .file m d) = fs := by
          simp [deleteEntry, Node.IsDir, remove, hst, hl]
        rw [hstep, ih fs hnd.2 hpre_rest q, hdel]
        simp [hl]
      · have hstep : deleteEntry locked dir fs (name, .file m d) = unlink fs (dir ++ [name]) := by
          simp [deleteEntry, Node.IsDir, remove, hst, hl]
        have hpre1 : ∀ e ∈ rest, attrAt (unlink fs (dir ++ [name])) (dir ++ [e.1]) =
            some e.2.attr := by
          intro e he
          rw [attrAt_unlink]
          have hne : ¬ (dir ++ [name]) <+: (dir ++ [e.1]) := by
            intro hh
            apply hnd.1
            rw [snoc_prefix_snoc dir name e.1 hh]
            exact List.mem_map.2 ⟨e, he, rfl⟩
          simp only [hne, and_false, if_false]
          exact hpre_rest e he
        rw [hstep, ih _ hnd.2 hpre1 q, hdel, attrAt_unlink]
        have hl' : locked (dir ++ [name]) = false := by simpa using hl
        by_cases hp : (dir ++ [name]) <+: q
        · simp [Node.IsDir, hl', hp]
        · simp [Node.IsDir, hl', hp]

/-- Cleanup resilience of `Clean` where every `entry.Info()` of the listing
loop succeeds.  When the artifact directory `<repoPath>/cache` can be read,
`Clean` returns no error, whatever the single deletions do; with each name
listed once, every file of the directory that `os.Remove` does not fail on is
gone, and every other path is as before: the files that could not be deleted,
the directories of the listing and what is in them, and all that lies
elsewhere.  When the directory cannot be read, `Clean` returns that error and
the file system is as before. -/
theorem clean_when_listing_works (lstatFails locked : Path → Bool) (repoPath : Path)
    (root : Node) :
    (∀ entries, readDir root (repoPath ++ [ "cache" ]) = .ok entries →
      listingStops lstatFails (repoPath ++ [ "cache" ]) (fun n => !n.IsDir) entries = false →
      (Clean lstatFails locked repoPath root).err = none ∧
      ((entries.map Prod.fst).Nodup →
        (∀ name m d, attrAt root (repoPath ++ [ "cache" ] ++ [name]) = some (.file m d) →
          locked (repoPath ++ [ "cache" ] ++ [name]) = false →
          attrAt (Clean lstatFails locked repoPath root).fs
            (repoPath ++ [ "cache" ] ++ [name]) = none) ∧
        (∀ q, (∀ name m d, q = repoPath ++ [ "cache" ] ++ [name] →
            attrAt root q = some (.file m d) → locked q = true) →
          attrAt (Clean lstatFails locked repoPath root).fs q = attrAt root q))) ∧
    (∀ e, readDir root (repoPath ++ [ "cache" ]) = .error e →
      (Clean lstatFails locked repoPath root).err = some e ∧
      (Clean lstatFails locked repoPath root).fs = root) := by
  refine ⟨?_, ?_⟩
  · intro entries hrd hlist
    have hC : Clean lstatFails locked repoPath root =
        ⟨entries.foldl (deleteEntry locked (repoPath ++ [ "cache" ])) root, none⟩ := by
      simp [Clean, hrd, hlist]
    rw [hC]
    refine ⟨rfl, ?_⟩
    intro hnd
    have hpre : ∀ e ∈ entries, attrAt root (repoPath ++ [ "cache" ] ++ [e.1]) = some e.2.attr := by
      intro e he
      rw [attrAt_readDir_entry root _ entries hrd e.1, getKid_of_mem entries e.1 e.2 hnd he]
      rfl
    have hspec := attrAt_foldl_deleteEntry locked (repoPath ++ [ "cache" ]) entries root hnd hpre
    constructor
    · intro name m d hfile hl
      simp only []
      rw [hspec]
      have hk := getKid_of_attrAt_file root _ entries hrd name m d hfile
      have hmem := mem_of_getKid entries name _ hk
      have : deleted locked (repoPath ++ [ "cache" ]) entries
          (repoPath ++ [ "cache" ] ++ [name]) = true := by
        simp only [deleted, List.any_eq_true]
        refine ⟨(name, .file m d), hmem, ?_⟩
        simp only [Node.IsDir, hl, List.prefix_refl, decide_True]
        rfl
      rw [this]
      rfl
    · intro q hq
      simp only []
      rw [hspec]
      by_cases hdel : deleted locked (repoPath ++ [ "cache" ]) entries q = true
      · rw [if_pos hdel]
        simp only [deleted, List.any_eq_true] at hdel
        obtain ⟨⟨name, node⟩, hmem, hcond⟩ := hdel
        simp only [Bool.and_eq_true, Bool.not_eq_true', decide_eq_true_eq] at hcond
        obtain ⟨⟨hnd', hul⟩, hpfx⟩ := hcond
        have hattr := hpre (name, node) hmem
        cases node with
        | dir m' k' => simp [Node.IsDir] at hnd'
        | file m d =>
          simp only [Node.attr] at hattr
          obtain ⟨r, hr⟩ := hpfx
          cases r with
          | nil =>
            exfalso
            rw [List.append_nil] at hr
            have := hq name m d hr.symm (by rw [← hr]; exact hattr)
            rw [← hr, hul] at this
            exact Bool.noConfusion this
          | cons c r' =>
            rw [← hr, attrAt_append _ _ root _ (stat_of_attrAt_file _ _ _ _ hattr)]
            simp [attrAt_file_cons]
      · rw [if_neg hdel]
  · intro e hrd
    simp [Clean, hrd]

/-- `Clean` on the sample artifact directory, every `entry.Info()` succeeding:
of three files one cannot be deleted, the two others are gone, the directory
stays. -/
theorem clean_sample :
    (Clean lstatWorks sampleLocked [ "home", "repo" ] sampleArtifacts).err = none ∧
    readDir (Clean lstatWorks sampleLocked [ "home", "repo" ] sampleArtifacts).fs
      [ "home", "repo", "cache" ] =
      .ok [("b.tar.gz", .file 0o644 [2, 2]),
        ("old", .dir 0o755 [("d.tar.gz", .file 0o644 [4])])] :=
  ⟨rfl, by rfl⟩

/-- C6.  The listing loop of `Clean` discards the error of `entry.Info()` and
uses its result: on the sample artifact directory, readable but not
searchable, `os.ReadDir` succeeds, `entry.Info()` fails on the first file, and
`Clean` stops on the nil `info` instead of returning nil; nothing is deleted.
Where every `entry.Info()` succeeds `Clean` returns nil on the same
directory. -/
theorem clean_stops_on_failed_lstat :
    readDir sampleArtifacts [ "home", "repo", "cache" ] =
      .ok [("a.tar.gz", .file 0o644 [1]), ("b.tar.gz", .file 0o644 [2, 2]),
        ("c.tar.gz", .file 0o644 [3, 3, 3]),
        ("old", .dir 0o755 [("d.tar.gz", .file 0o644 [4])])] ∧
    sampleUnsearchable [ "home", "repo", "cache", "a.tar.gz" ] = true ∧
    (Clean sampleUnsearchable (fun _ => false) [ "home", "repo" ] sampleArtifacts).err =
      some (.other "nil dereference") ∧
    (Clean sampleUnsearchable (fun _ => false) [ "home", "repo" ] sampleArtifacts).fs =
      sampleArtifacts ∧
    (Clean lstatWorks (fun _ => false) [ "home", "repo" ] sampleArtifacts).err = none := by
  refine ⟨rfl, by decide, by decide, rfl, rfl⟩

end Cache

/-! ## Replicating the skills directory -/

namespace Skills
open Filepath Cache

theorem create_not_dir (p : Path) : ∀ (root root' : Node), create root p = .ok root' →
    ∀ m, attrAt root p ≠ some (.dir m) := by
  induction p with
  | nil =>
    intro root root' h m
    cases root with
    | dir m' kids => simp [create] at h
    | file m' d => simp [attrAt_nil, Node.attr]
  | cons c rest ih =>
    intro root root' h m
    cases root with
    | file m' d => simp [create] at h
    | dir m' kids =>
      simp only [create] at h
      rw [attrAt_dir_cons]
      cases hk : getKid kids c with
      | none => simp
      | some k =>
        simp only [hk] at h ⊢
        cases hm : create k rest with
        | error e => simp [hm] at h
        | ok k' => exact ih k k' hm m

theorem closeErr_none (a b c : Option Err) (h : closeErr a b c = none) : a = none := by
  cases a with
  | none => rfl
  | some e => simp [closeErr] at h

/-- A copy that succeeds: the source was a file, the destination is a file
with the content and the mode the source has afterwards, and no other path
has changed. -/
theorem copySkillFile_ok (cl : Closes) (root root' : Node) (src dst : Path)
    (h : copySkillFile cl root src dst = ⟨root', none⟩) :
    (∃ m d, attrAt root src = some (.file m d)) ∧
    (∀ q, q ≠ dst → attrAt root' q = attrAt root q) ∧
    attrAt root' dst = attrAt root' src ∧
    (src ≠ dst → attrAt root' dst = attrAt root src) := by
  unfold copySkillFile at h
  cases hs : stat root src with
  | error e => simp [hs] at h
  | ok n0 =>
    simp only [hs] at h
    cases hc : create root dst with
    | error e =>
      simp only [hc, Outcome.mk.injEq] at h
      exact absurd (closeErr_none _ _ _ h.2) (by simp)
    | ok root1 =>
      simp only [hc] at h
      obtain ⟨⟨mc, hmc, _, _⟩, hframe1⟩ := attrAt_create _ root root1 hc
      cases hs1 : stat root1 src with
      | error e =>
        simp only [hs1, Outcome.mk.injEq] at h
        exact absurd (closeErr_none _ _ _ h.2) (by simp)
      | ok n1 =>
        cases n1 with
        | dir m' k' =>
          simp only [hs1, Outcome.mk.injEq] at h
          exact absurd (closeErr_none _ _ _ h.2) (by simp)
        | file m1 data =>
          simp only [hs1] at h
          have ha1 : attrAt root1 src = some (.file m1 data) := by
            simp [attrAt, hs1, Node.attr]
          have hw : ∀ q, attrAt (write root1 dst data) q =
              if q = dst then some (.file mc data) else attrAt root1 q := by
            intro q
            rw [attrAt_write, hmc]
          cases hs2 : stat (write root1 dst data) src with
          | error e =>
            simp only [hs2, Outcome.mk.injEq] at h
            exact absurd (closeErr_none _ _ _ h.2) (by simp)
          | ok n2 =>
            simp only [hs2] at h
            cases hch : chmod (write root1 dst data) dst n2.Mode with
            | error e =>
              simp only [hch, Outcome.mk.injEq] at h
              exact absurd (closeErr_none _ _ _ h.2) (by simp)
            | ok root3 =>
              simp only [hch, Outcome.mk.injEq] at h
              obtain ⟨h3, _⟩ := h
              subst h3
              have hch' := fun q => attrAt_chmod _ _ dst q n2.Mode hch
              have ha2 : attrAt (write root1 dst data) src = some n2.attr := by
                simp [attrAt, hs2]
              have hdst : attrAt root3 dst = some (.file n2.Mode data) := by
                rw [hch' dst, if_pos rfl, hw dst, if_pos rfl]
              have hother : ∀ q, q ≠ dst → attrAt root3 q = attrAt root q := by
                intro q hq
                rw [hch' q, if_neg hq, hw q, if_neg hq, hframe1 q hq]
              by_cases hsd : src = dst
              · subst hsd
                have hfile : ∃ m d, attrAt root src = some (.file m d) := by
                  have hnd := create_not_dir _ root root1 hc
                  have : attrAt root src = some n0.attr := by simp [attrAt, hs]
                  cases n0 with
                  | dir m' k' => exact absurd this (hnd m')
                  | file m' d' => exact ⟨m', d', this⟩
                exact ⟨hfile, hother, rfl, fun hne => absurd rfl hne⟩
              · have h1 : attrAt root1 src = attrAt root src := hframe1 src hsd
                have h2 : attrAt (write root1 dst data) src = attrAt root src := by
                  rw [hw src, if_neg hsd, h1]
                have h3 : some n2.attr = some (Attr.file m1 data) := by
                  rw [← ha2, h2, ← h1, ha1]
                have hmode : n2.Mode = m1 := by
                  cases n2 with
                  | dir m' k' => simp [Node.attr] at h3
                  | file m' d' =>
                    simp only [Node.attr, Option.some.injEq, Attr.file.injEq] at h3
                    simp [Node.Mode, h3.1]
                have hsrc : attrAt root src = some (.file m1 data) := by rw [← h1, ha1]
                refine ⟨⟨m1, data, hsrc⟩, hother, ?_, fun _ => ?_⟩
                · rw [hdst, hother src hsd, hsrc, hmode]
                · rw [hdst, hsrc, hmode]

theorem snoc_inj (a b : Path) (x y : String) (h : a ++ [x] = b ++ [y]) : a = b ∧ x = y := by
  have := List.append_inj' h rfl
  exact ⟨this.1, by simpa using this.2⟩

theorem nonDirs_cons_dir (name : String) (info : Node) (rest : List (String × Node))
    (h : info.IsDir = true) : nonDirs ((name, info) :: rest) = nonDirs rest := by
  simp [nonDirs, List.filter, h]

theorem nonDirs_cons_file (name : String) (info : Node) (rest : List (String × Node))
    (h : info.IsDir = false) : nonDirs ((name, info) :: rest) = (name, info) :: nonDirs rest := by
  simp [nonDirs, List.filter, h]

/-- The copying loop, when it succeeds. -/
theorem copyAll_ok (cl : Closes) (srcDir dstDir : Path) (entries : List (String × Node)) :
    ∀ (root root' : Node) (count count' : Nat),
    copyAll cl srcDir dstDir root entries count = (root', none, count') →
    count' = count + (nonDirs entries).length ∧
    (∀ q, (∀ x ∈ (nonDirs entries).map Prod.fst, q ≠ dstDir ++ [x]) →
      attrAt root' q = attrAt root q) ∧
    (∀ x ∈ (nonDirs entries).map Prod.fst, ∃ m d, attrAt root (srcDir ++ [x]) = some (.file m d)) ∧
    (∀ x ∈ (nonDirs entries).map Prod.fst,
      attrAt root' (dstDir ++ [x]) = attrAt root' (srcDir ++ [x]) ∧
      (srcDir ≠ dstDir → attrAt root' (dstDir ++ [x]) = attrAt root (srcDir ++ [x]))) := by
  induction entries with
  | nil =>
    intro root root' count count' h
    simp only [copyAll, Prod.mk.injEq] at h
    obtain ⟨h1, _, h3⟩ := h
    subst h1
    subst h3
    simp [nonDirs]
  | cons kv rest ih =>
    obtain ⟨name, info⟩ := kv
    intro root root' count count' h
    by_cases hd : info.IsDir = true
    · have hstep : copyAll cl srcDir dstDir root ((name, info) :: rest) count =
          copyAll cl srcDir dstDir root rest count := by
        simp [copyAll, hd]
      rw [hstep] at h
      rw [nonDirs_cons_dir name info rest hd]
      exact ih root root' count count' h
    · have hd' : info.IsDir = false := by simpa using hd
      rw [nonDirs_cons_file name info rest hd']
      cases hcp : copySkillFile cl root (srcDir ++ [name]) (dstDir ++ [name]) with
      | mk root1 err =>
        cases err with
        | some e => simp [copyAll, hd', hcp] at h
        | none =>
          have hstep : copyAll cl srcDir dstDir root ((name, info) :: rest) count =
              copyAll cl srcDir dstDir root1 rest (count + 1) := by
            simp [copyAll, hd', hcp]
          rw [hstep] at h
          obtain ⟨hc1, hc2, hc3, hc4⟩ := ih root1 root' (count + 1) count' h
          obtain ⟨hfile, hframe, hsame, hcopy⟩ := copySkillFile_ok cl root root1 _ _ hcp
          refine ⟨?_, ?_, ?_, ?_⟩
          · rw [hc1]; simp; omega
          · intro q hq
            have hq1 : ∀ x ∈ (nonDirs rest).map Prod.fst, q ≠ dstDir ++ [x] :=
              fun x hx => hq x (by simp only [List.map_cons, List.mem_cons]; exact Or.inr hx)
            rw [hc2 q hq1, hframe q (hq name (by simp))]
          · intro x hx
            simp only [List.map_cons, List.mem_cons] at hx
            rcases hx with hx | hx
            · subst hx; exact hfile
            · obtain ⟨m, d, hmd⟩ := hc3 x hx
              by_cases heq : srcDir ++ [x] = dstDir ++ [name]
              · obtain ⟨h1, h2⟩ := snoc_inj _ _ _ _ heq
                rw [h2]
                exact hfile
              · rw [hframe _ heq] at hmd
                exact ⟨m, d, hmd⟩
          · intro x hx
            by_cases hx' : x ∈ (nonDirs rest).map Prod.fst
            · obtain ⟨h1, h2⟩ := hc4 x hx'
              refine ⟨h1, fun hne => ?_⟩
              rw [h2 hne]
              apply hframe
              intro hh
              exact hne (snoc_inj _ _ _ _ hh).1
            · simp only [List.map_cons, List.mem_cons] at hx
              have hxn : x = name := by
                rcases hx with hx | hx
                · exact hx
                · exact absurd hx hx'
              subst hxn
              have hd1 : attrAt root' (dstDir ++ [x]) = attrAt root1 (dstDir ++ [x]) := by
                apply hc2
                intro y hy hh
                have := (snoc_inj _ _ _ _ hh).2
                exact hx' (this ▸ hy)
              have hs1 : attrAt root' (srcDir ++ [x]) = attrAt root1 (srcDir ++ [x]) := by
                apply hc2
                intro y hy hh
                have := (snoc_inj _ _ _ _ hh).2
                exact hx' (this ▸ hy)
              refine ⟨by rw [hd1, hs1, hsame], fun hne => ?_⟩
              rw [hd1]
              apply hcopy
              intro hh
              exact hne (snoc_inj _ _ _ _ hh).1

theorem attrAt_mkdirAll_keep (root root' : Node) (p q : Path) (perm : Nat)
    (h : mkdirAll root p perm = .ok root') (hq : attrAt root q ≠ none) :
    attrAt root' q = attrAt root q := by
  rw [attrAt_mkdirAll p root root' perm h q]
  simp [hq]

theorem attrAt_mkdirAll_far (root root' : Node) (p q : Path) (perm : Nat)
    (h : mkdirAll root p perm = .ok root') (hq : ¬ q <+: p) :
    attrAt root' q = attrAt root q := by
  rw [attrAt_mkdirAll p root root' perm h q]
  simp [hq]

/-- What `Backup` without the skip flag does when it returns no error and the
source directory is there. -/
theorem skillsBackup_ok (cl : Closes) (claudeDir configDir : Path) (root : Node)
    (kids : List (String × Node))
    (hsrc : readDir root (claudeDir ++ [ "skills" ]) = .ok kids)
    (hok : (Backup false cl claudeDir configDir root).err = none) :
    ∃ root1 entries root2 count,
      mkdirAll root (configDir ++ [ "skills" ]) 0o755 = .ok root1 ∧
      readDir root1 (claudeDir ++ [ "skills" ]) = .ok entries ∧
      copyAll cl (claudeDir ++ [ "skills" ]) (configDir ++ [ "skills" ]) root1 entries 0 =
        (root2, none, count) ∧
      Backup false cl claudeDir configDir root = ⟨root2, none, some (.count count)⟩ := by
  have hstat : notExist (stat root (claudeDir ++ [ "skills" ])) = false := by
    unfold readDir at hsrc
    cases hs : stat root (claudeDir ++ [ "skills" ]) with
    | error e => simp [hs] at hsrc
    | ok n => rfl
  unfold Backup at hok ⊢
  simp only [Bool.false_eq_true, if_false, hstat] at hok ⊢
  cases hm : mkdirAll root (configDir ++ [ "skills" ]) 0o755 with
  | error e => simp [hm] at hok
  | ok root1 =>
    simp only [hm] at hok ⊢
    cases hrd : readDir root1 (claudeDir ++ [ "skills" ]) with
    | error e => simp [hrd] at hok
    | ok entries =>
      simp only [hrd] at hok ⊢
      cases hca : copyAll cl (claudeDir ++ [ "skills" ]) (configDir ++ [ "skills" ]) root1
        entries 0 with
      | mk root2 rest =>
        obtain ⟨err, count⟩ := rest
        cases err with
        | some e => simp [hca] at hok
        | none => exact ⟨root1, entries, root2, count, rfl, hrd, hca, by simp [hca]⟩

/-- C5.  Selective replication by `SkillsBackup.Backup` without the skip
flag.  The source directory `<claudeDir>/skills` is there and `Backup` returns
no error.  Then the destination directory `<configDir>/skills` is there; for
every entry of the source that is a file, the destination has a file of that
name with the same bytes and the same mode; when destination and source are
two directories, these are the bytes and the mode the source file had before
the run, and the source file still has them; for an entry of the source that
is a directory, nothing at or below that name in the destination is touched;
and the count reported is the number of entries of the source that are not
directories. -/
theorem skills_backup_replicates (cl : Closes) (claudeDir configDir : Path) (root : Node)
    (kids : List (String × Node))
    (hsrc : readDir root (claudeDir ++ [ "skills" ]) = .ok kids)
    (hok : (Backup false cl claudeDir configDir root).err = none) :
    (∃ m, attrAt (Backup false cl claudeDir configDir root).fs (configDir ++ [ "skills" ]) =
      some (.dir m)) ∧
    (∀ name m d,
      attrAt (Backup false cl claudeDir configDir root).fs (claudeDir ++ [ "skills" ] ++ [name]) =
        some (.file m d) →
      attrAt (Backup false cl claudeDir configDir root).fs (configDir ++ [ "skills" ] ++ [name]) =
        some (.file m d)) ∧
    (claudeDir ++ [ "skills" ] ≠ configDir ++ [ "skills" ] → ∀ name m d,
      attrAt root (claudeDir ++ [ "skills" ] ++ [name]) = some (.file m d) →
      attrAt (Backup false cl claudeDir configDir root).fs (configDir ++ [ "skills" ] ++ [name]) =
        some (.file m d) ∧
      attrAt (Backup false cl claudeDir configDir root).fs (claudeDir ++ [ "skills" ] ++ [name]) =
        some (.file m d)) ∧
    (∀ name m, attrAt root (claudeDir ++ [ "skills" ] ++ [name]) = some (.dir m) →
      ∀ r, attrAt (Backup false cl claudeDir configDir root).fs
          (configDir ++ [ "skills" ] ++ name :: r) =
        attrAt root (configDir ++ [ "skills" ] ++ name :: r)) ∧
    (Backup false cl claudeDir configDir root).report = some (.count (nonDirs kids).length) := by
  obtain ⟨root1, entries, root2, count, hmk, hrd, hca, hB⟩ :=
    skillsBackup_ok cl claudeDir configDir root kids hsrc hok
  obtain ⟨kids', hrd', hnd⟩ := readDir_mkdirAll _ root root1 0o755 _ kids hmk hsrc
  have hek : entries = kids' := by
    rw [hrd] at hrd'
    exact Except.ok.inj hrd'
  subst hek
  obtain ⟨hc1, hc2, hc3, hc4⟩ := copyAll_ok cl _ _ entries root1 root2 0 count hca
  -- a file of the source, as listed after the destination was made, is copied
  have hlisted : ∀ name m d, attrAt root1 (claudeDir ++ [ "skills" ] ++ [name]) = some (.file m d) →
      name ∈ (nonDirs entries).map Prod.fst := by
    intro name m d h
    have hk := getKid_of_attrAt_file root1 _ entries hrd name m d h
    have hmem := mem_of_getKid entries name _ hk
    refine List.mem_map.2 ⟨(name, .file m d), ?_, rfl⟩
    simp only [nonDirs, List.mem_filter]
    exact ⟨hmem, by simp [Node.IsDir]⟩
  rw [hB]
  simp only []
  refine ⟨?_, ?_, ?_, ?_, ?_⟩
  · obtain ⟨m, hm⟩ := mkdirAll_post _ root root1 0o755 hmk
    refine ⟨m, ?_⟩
    rw [hc2 _ (by
      intro x _ hh
      have := congrArg List.length hh
      simp at this), hm]
  · intro name m d h
    by_cases hx : name ∈ (nonDirs entries).map Prod.fst
    · rw [(hc4 name hx).1, h]
    · exfalso
      apply hx
      apply hlisted name m d
      rw [← hc2 _ (by
        intro x hx' hh
        have := (snoc_inj _ _ _ _ hh).2
        exact hx (this ▸ hx')), h]
  · intro hne name m d h
    have h1 : attrAt root1 (claudeDir ++ [ "skills" ] ++ [name]) = some (.file m d) := by
      rw [attrAt_mkdirAll_keep root root1 _ _ 0o755 hmk (by rw [h]; simp), h]
    have hx := hlisted name m d h1
    refine ⟨by rw [(hc4 name hx).2 hne, h1], ?_⟩
    rw [hc2 _ (by
      intro x _ hh
      exact hne (snoc_inj _ _ _ _ hh).1), h1]
  · intro name m h r
    have h1 : attrAt root1 (claudeDir ++ [ "skills" ] ++ [name]) = some (.dir m) := by
      rw [attrAt_mkdirAll_keep root root1 _ _ 0o755 hmk (by rw [h]; simp), h]
    have hx : name ∉ (nonDirs entries).map Prod.fst := by
      intro hx
      obtain ⟨m', d', hmd⟩ := hc3 name hx
      rw [h1] at hmd
      simp at hmd
    rw [hc2 _ (by
      intro x hx' hh
      have h2 := List.append_cancel_left hh
      simp only [List.cons.injEq] at h2
      exact hx (h2.1 ▸ hx'))]
    apply attrAt_mkdirAll_far root root1 _ _ 0o755 hmk
    intro hp
    have := hp.length_le
    simp at this
  · rw [hc1, hnd]
    simp

/-- C5 on the sample skills directory: three files are copied, the directory
is not, the count is 3. -/
theorem skills_backup_replicates_witness :
    readDir sampleSkills ([ "home", ".claude" ] ++ [ "skills" ]) =
      .ok [("a.sh", .file 0o755 [1]), ("b.md", .file 0o644 [2, 2]),
        ("c.py", .file 0o700 [3, 3, 3]),
        ("drafts", .dir 0o755 [("d.sh", .file 0o755 [4])])] ∧
    (Backup false cleanCloses [ "home", ".claude" ] [ "home", "repo" ] sampleSkills).err = none ∧
    (Backup false cleanCloses [ "home", ".claude" ] [ "home", "repo" ] sampleSkills).report =
      some (.count 3) ∧
    readDir (Backup false cleanCloses [ "home", ".claude" ] [ "home", "repo" ] sampleSkills).fs
      [ "home", "repo", "skills" ] =
      .ok [("a.sh", .file 0o755 [1]), ("b.md", .file 0o644 [2, 2]),
        ("c.py", .file 0o700 [3, 3, 3])] :=
  ⟨rfl, rfl,
    (skills_backup_replicates cleanCloses [ "home", ".claude" ] [ "home", "repo" ] sampleSkills
      _ rfl rfl).2.2.2.2,
    by rfl⟩

end Skills

end CcConfig
